import Mathlib

/-!
A verification development for the red/green syntax-tree overlay
(`src/cursor.rs` of the `rowan` repository).

The green layer (`GreenNode`/`GreenToken`/`GreenElement`) and the text
primitives (`TextUnit`/`TextRange`) are external collaborators of the
source file; they are modelled from the spec (§3, §6.1, §6.2).  The
overlay layer (`SyntaxNode`/`SyntaxToken`/`SyntaxElement`), the child
iterators, the free-list pool and all tree algorithms are translated
from `src/cursor.rs`.

Modelling conventions:
  * `TextUnit` is `Nat`; `SmolStr` is `String`; `SyntaxKind` is `Nat`.
  * Rust `ptr::eq` on interned green data is modelled as structural
    equality of green values.
  * A Rust panic (a failed `assert!`, `unwrap`, or `unreachable!`) is
    modelled as `Option.none` of the translated function.
  * Recursion over the tree uses explicit fuel (`GreenElement.depth`
    bounds the recursion depth); the public wrappers supply enough fuel.
-/

set_option maxHeartbeats 1000000

namespace Rowan

/-- Modelled from the spec (§3, §6.2): a green element is an immutable
node (kind + ordered children) or token (kind + text).  `GreenNode` and
`GreenToken` are the two constructors of this tagged union. -/
inductive GreenElement where
  | node (kind : Nat) (children : List GreenElement)
  | token (kind : Nat) (text : String)

instance : Inhabited GreenElement := ⟨.node 0 []⟩

namespace GreenElement

mutual
def beq : GreenElement → GreenElement → Bool
  | .node k cs, .node k' cs' => k == k' && beqList cs cs'
  | .token k s, .token k' s' => k == k' && s == s'
  | _, _ => false

def beqList : List GreenElement → List GreenElement → Bool
  | [], [] => true
  | c :: cs, c' :: cs' => beq c c' && beqList cs cs'
  | _, _ => false
end

mutual
theorem beq_iff : ∀ a b : GreenElement, beq a b = true ↔ a = b
  | .node k cs, .node k' cs' => by
    simp [beq, beqList_iff cs cs']
  | .token k s, .token k' s' => by
    simp [beq]
  | .node _ _, .token _ _ => by simp [beq]
  | .token _ _, .node _ _ => by simp [beq]

theorem beqList_iff : ∀ a b : List GreenElement, beqList a b = true ↔ a = b
  | [], [] => by simp [beqList]
  | c :: cs, c' :: cs' => by
    simp [beqList, beq_iff c c', beqList_iff cs cs']
  | [], _ :: _ => by simp [beqList]
  | _ :: _, [] => by simp [beqList]
end

instance : DecidableEq GreenElement :=
  fun a b => decidable_of_iff (beq a b = true) (beq_iff a b)

/-- Modelled from the spec (§6.2): kind of a green element. -/
def kind : GreenElement → Nat
  | .node k _ => k
  | .token k _ => k

/-- Children of a green element (tokens have none). -/
def children : GreenElement → List GreenElement
  | .node _ cs => cs
  | .token _ _ => []

def isNode : GreenElement → Bool
  | .node _ _ => true
  | .token _ _ => false

def isToken : GreenElement → Bool
  | .node _ _ => false
  | .token _ _ => true

mutual
/-- Modelled from the spec (§3): `text_len` of a node is the sum of the
text lengths of its children; of a token, the length of its text. -/
def text_len : GreenElement → Nat
  | .token _ s => s.length
  | .node _ cs => textLenList cs

def textLenList : List GreenElement → Nat
  | [] => 0
  | c :: cs => c.text_len + textLenList cs
end

mutual
/-- Full text of a green subtree (concatenation of token texts). -/
def text : GreenElement → String
  | .token _ s => s
  | .node _ cs => textList cs

def textList : List GreenElement → String
  | [] => ""
  | c :: cs => c.text ++ textList cs
end

mutual
/-- Depth of a green tree, used as recursion fuel. -/
def depth : GreenElement → Nat
  | .token _ _ => 1
  | .node _ cs => 1 + depthList cs

def depthList : List GreenElement → Nat
  | [] => 0
  | c :: cs => max c.depth (depthList cs)
end

mutual
/-- Number of elements (nodes and tokens) in a green subtree. -/
def count : GreenElement → Nat
  | .token _ _ => 1
  | .node _ cs => 1 + countList cs

def countList : List GreenElement → Nat
  | [] => 0
  | c :: cs => c.count + countList cs
end

end GreenElement

/-- Modelled from the spec (§6.1): a half-open text range `[start, stop)`
over `TextUnit = Nat`. -/
structure TextRange where
  start : Nat
  stop : Nat
  deriving DecidableEq

namespace TextRange

/-- Modelled from the spec (§6.1): `offset_len(off, len) = [off, off+len)`. -/
def offset_len (off len : Nat) : TextRange := ⟨off, off + len⟩

/-- Modelled from the spec (§6.1): a range is empty when start = stop. -/
def isEmpty (r : TextRange) : Bool := r.start == r.stop

/-- Modelled from the spec (§6.1): `self.is_subrange(other)` holds when
`self` is contained in `other` (endpoints inclusive). -/
def is_subrange (self other : TextRange) : Bool :=
  other.start ≤ self.start && self.stop ≤ other.stop

end TextRange

/-- `WalkEvent` (spec §6.1): `Enter(T) | Leave(T)`. -/
inductive WalkEvent (α : Type) where
  | enter (x : α)
  | leave (x : α)
  deriving DecidableEq

/-- `TokenAtOffset` (spec §6.1): `None | Single(T) | Between(T, T)`. -/
inductive TokenAtOffset (α : Type) where
  | none
  | single (t : α)
  | between (l r : α)
  deriving DecidableEq

/-- Overlay node (`SyntaxNode` in `cursor.rs`).  A node is either the
root (owning its green node) or a child carrying its parent overlay, its
index among the parent's green children, and its absolute offset.  The
`Free` pool variant of `Kind` never escapes the pool and is not part of
the overlay tree shape; the green pointer of a child is recovered by
indexing into the parent's green children (spec §9, green pointer
aliasing). -/
inductive SyntaxNode where
  | root (green : GreenElement)
  | child (parent : SyntaxNode) (index : Nat) (offset : Nat)
  deriving DecidableEq

/-- Overlay token (`SyntaxToken` in `cursor.rs`): parent overlay node,
child index, absolute offset. -/
structure SyntaxToken where
  parent : SyntaxNode
  index : Nat
  offset : Nat
  deriving DecidableEq

/-- `SyntaxElement` in `cursor.rs`: tagged union of node and token. -/
inductive SyntaxElement where
  | nodeEl (n : SyntaxNode)
  | tokenEl (t : SyntaxToken)
  deriving DecidableEq

namespace SyntaxNode

/-- Absolute start offset of an overlay node: 0 for the root, the stored
offset for a child (`SyntaxNode::text_range`, first half). -/
def startOffset : SyntaxNode → Nat
  | .root _ => 0
  | .child _ _ off => off

/-- `SyntaxNode::green`: the root's own green node, or the parent's green
child at this node's index.  An out-of-range index (impossible for
overlays built by the navigation API) yields the default green node,
standing in for the unreachable case. -/
def green : SyntaxNode → GreenElement
  | .root g => g
  | .child p i _ => ((green p).children[i]?).getD default

/-- `SyntaxNode::text_range`. -/
def text_range (n : SyntaxNode) : TextRange :=
  TextRange.offset_len n.startOffset n.green.text_len

/-- `SyntaxNode::kind`. -/
def kind (n : SyntaxNode) : Nat := n.green.kind

/-- `SyntaxNode::parent`. -/
def parent : SyntaxNode → Option SyntaxNode
  | .root _ => none
  | .child p _ _ => some p

end SyntaxNode

namespace SyntaxToken

/-- `SyntaxToken::green`: the parent's green child at `index`, which must
be a token (`unreachable!` otherwise, modelled by a default token). -/
def green (t : SyntaxToken) : GreenElement :=
  match t.parent.green.children[t.index]? with
  | some (.token k s) => .token k s
  | _ => .token 0 ""

/-- `SyntaxToken::text_range`. -/
def text_range (t : SyntaxToken) : TextRange :=
  TextRange.offset_len t.offset t.green.text_len

/-- `SyntaxToken::kind`. -/
def kind (t : SyntaxToken) : Nat := t.green.kind

/-- `SyntaxToken::text`. -/
def text (t : SyntaxToken) : String :=
  match t.green with
  | .token _ s => s
  | .node _ _ => ""

end SyntaxToken

namespace SyntaxElement

/-- `SyntaxElement::new`: wrap a green child as an overlay element. -/
def new (element : GreenElement) (parent : SyntaxNode) (index : Nat)
    (offset : Nat) : SyntaxElement :=
  match element with
  | .node _ _ => .nodeEl (.child parent index offset)
  | .token _ _ => .tokenEl ⟨parent, index, offset⟩

/-- `SyntaxElement::text_range`. -/
def text_range : SyntaxElement → TextRange
  | .nodeEl n => n.text_range
  | .tokenEl t => t.text_range

/-- `SyntaxElement::parent`. -/
def parent : SyntaxElement → Option SyntaxNode
  | .nodeEl n => n.parent
  | .tokenEl t => some t.parent

/-- Green element viewed by an overlay element. -/
def green : SyntaxElement → GreenElement
  | .nodeEl n => n.green
  | .tokenEl t => t.green

/-- Child index of an overlay element (0 for a root node). -/
def index : SyntaxElement → Nat
  | .nodeEl (.root _) => 0
  | .nodeEl (.child _ i _) => i
  | .tokenEl t => t.index

end SyntaxElement

/-- Core of the child iterators (`Iter::next` and
`GreenNode::children_from` in `cursor.rs`): walk a child list forward,
yielding `(element, index, offset)` with the offset advanced by each
element's `text_len` after emission. -/
def childrenFromAux : List GreenElement → Nat → Nat →
    List (GreenElement × Nat × Nat)
  | [], _, _ => []
  | e :: es, i, off => (e, i, off) :: childrenFromAux es (i + 1) (off + e.text_len)

/-- Core of `GreenNode::children_to` in `cursor.rs`: walk the reversed
prefix, decrementing the offset by each element's `text_len` before
emission; indices count down. -/
def childrenToAux : List GreenElement → Nat → Nat →
    List (GreenElement × Nat × Nat)
  | [], _, _ => []
  | e :: es, i, off =>
    (e, i - 1, off - e.text_len) :: childrenToAux es (i - 1) (off - e.text_len)

namespace GreenElement

/-- `GreenNode::children_from(start_index, offset)`. -/
def children_from (g : GreenElement) (start_index offset : Nat) :
    List (GreenElement × Nat × Nat) :=
  childrenFromAux (g.children.drop start_index) start_index offset

/-- `GreenNode::children_to(end_index, offset)`. -/
def children_to (g : GreenElement) (end_index offset : Nat) :
    List (GreenElement × Nat × Nat) :=
  childrenToAux ((g.children.take end_index).reverse) end_index offset

end GreenElement

/-- `filter_nodes` in `cursor.rs`: keep only node-kind elements. -/
def filterNodes (l : List (GreenElement × Nat × Nat)) :
    List (GreenElement × Nat × Nat) :=
  l.filter (fun t => t.1.isNode)

namespace SyntaxNode

/-- `SyntaxNode::children_with_tokens` (via `Iter::new`: index 0, offset
= the parent's range start), materialized as a list. -/
def children_with_tokens (n : SyntaxNode) : List SyntaxElement :=
  (childrenFromAux n.green.children 0 n.text_range.start).map
    (fun t => SyntaxElement.new t.1 n t.2.1 t.2.2)

/-- `SyntaxNode::children` (node-kind children only), as a list. -/
def childrenNodes (n : SyntaxNode) : List SyntaxNode :=
  (filterNodes (childrenFromAux n.green.children 0 n.text_range.start)).map
    (fun t => SyntaxNode.child n t.2.1 t.2.2)

/-- `SyntaxNode::first_child`. -/
def first_child (n : SyntaxNode) : Option SyntaxNode :=
  match filterNodes (n.green.children_from 0 n.text_range.start) with
  | [] => none
  | t :: _ => some (.child n t.2.1 t.2.2)

/-- `SyntaxNode::first_child_or_token`. -/
def first_child_or_token (n : SyntaxNode) : Option SyntaxElement :=
  match n.green.children_from 0 n.text_range.start with
  | [] => none
  | t :: _ => some (SyntaxElement.new t.1 n t.2.1 t.2.2)

/-- `SyntaxNode::last_child`. -/
def last_child (n : SyntaxNode) : Option SyntaxNode :=
  match filterNodes (n.green.children_to n.green.children.length n.text_range.stop) with
  | [] => none
  | t :: _ => some (.child n t.2.1 t.2.2)

/-- `SyntaxNode::last_child_or_token`. -/
def last_child_or_token (n : SyntaxNode) : Option SyntaxElement :=
  match n.green.children_to n.green.children.length n.text_range.stop with
  | [] => none
  | t :: _ => some (SyntaxElement.new t.1 n t.2.1 t.2.2)

/-- `SyntaxNode::next_sibling`. -/
def next_sibling (n : SyntaxNode) : Option SyntaxNode :=
  match n with
  | .root _ => none
  | .child p i _ =>
    match filterNodes (p.green.children_from (i + 1) n.text_range.stop) with
    | [] => none
    | t :: _ => some (.child p t.2.1 t.2.2)

/-- `SyntaxNode::next_sibling_or_token`. -/
def next_sibling_or_token (n : SyntaxNode) : Option SyntaxElement :=
  match n with
  | .root _ => none
  | .child p i _ =>
    match p.green.children_from (i + 1) n.text_range.stop with
    | [] => none
    | t :: _ => some (SyntaxElement.new t.1 p t.2.1 t.2.2)

/-- `SyntaxNode::prev_sibling`. -/
def prev_sibling (n : SyntaxNode) : Option SyntaxNode :=
  match n with
  | .root _ => none
  | .child p i _ =>
    match filterNodes (p.green.children_to i n.text_range.start) with
    | [] => none
    | t :: _ => some (.child p t.2.1 t.2.2)

/-- `SyntaxNode::prev_sibling_or_token`. -/
def prev_sibling_or_token (n : SyntaxNode) : Option SyntaxElement :=
  match n with
  | .root _ => none
  | .child p i _ =>
    match p.green.children_to i n.text_range.start with
    | [] => none
    | t :: _ => some (SyntaxElement.new t.1 p t.2.1 t.2.2)

end SyntaxNode

namespace SyntaxToken

/-- `SyntaxToken::next_sibling_or_token`. -/
def next_sibling_or_token (t : SyntaxToken) : Option SyntaxElement :=
  match t.parent.green.children_from (t.index + 1) t.text_range.stop with
  | [] => none
  | e :: _ => some (SyntaxElement.new e.1 t.parent e.2.1 e.2.2)

/-- `SyntaxToken::prev_sibling_or_token`. -/
def prev_sibling_or_token (t : SyntaxToken) : Option SyntaxElement :=
  match t.parent.green.children_to t.index t.text_range.start with
  | [] => none
  | e :: _ => some (SyntaxElement.new e.1 t.parent e.2.1 e.2.2)

end SyntaxToken

namespace SyntaxElement

/-- `SyntaxElement::next_sibling_or_token`. -/
def next_sibling_or_token : SyntaxElement → Option SyntaxElement
  | .nodeEl n => n.next_sibling_or_token
  | .tokenEl t => t.next_sibling_or_token

/-- `SyntaxElement::prev_sibling_or_token`. -/
def prev_sibling_or_token : SyntaxElement → Option SyntaxElement
  | .nodeEl n => n.prev_sibling_or_token
  | .tokenEl t => t.prev_sibling_or_token

end SyntaxElement

/-- `impl PartialEq for SyntaxNode`: logical equality — same green node
(`ptr::eq` on interned greens, modelled structurally) and same absolute
start offset. -/
def SyntaxNode.eqv (a b : SyntaxNode) : Bool :=
  a.green == b.green && a.text_range.start == b.text_range.start

/-- `impl Hash for SyntaxNode`: the hasher consumes the green node
identity and the start offset; the model exposes that pair. -/
def SyntaxNode.hashData (n : SyntaxNode) : GreenElement × Nat :=
  (n.green, n.text_range.start)

/-- Derived `PartialEq` on `SyntaxToken`: fieldwise, with the parent
compared by `SyntaxNode`'s logical equality. -/
def SyntaxToken.eqv (a b : SyntaxToken) : Bool :=
  SyntaxNode.eqv a.parent b.parent && a.index == b.index && a.offset == b.offset

/-- Derived `Hash` on `SyntaxToken`: hashes the parent's hash input, the
index and the offset. -/
def SyntaxToken.hashData (t : SyntaxToken) : (GreenElement × Nat) × Nat × Nat :=
  (t.parent.hashData, t.index, t.offset)

/-- Derived `PartialEq` on `SyntaxElement`. -/
def SyntaxElement.eqv : SyntaxElement → SyntaxElement → Bool
  | .nodeEl a, .nodeEl b => SyntaxNode.eqv a b
  | .tokenEl a, .tokenEl b => SyntaxToken.eqv a b
  | _, _ => false

/-- The `enumerate().map(..)` child substitution of `replace_with`:
replace the element at position `me`, keep every other child. -/
def replaceAt : List GreenElement → Nat → GreenElement → List GreenElement
  | [], _, _ => []
  | _ :: cs, 0, r => r :: cs
  | c :: cs, i + 1, r => c :: replaceAt cs i r

/-- `SyntaxNode::replace_with`: returns the root green tree with this
node substituted, or `none` when an `assert!`/`unwrap` panics (kind
mismatch, or a child index out of range so the replacement is never
taken). -/
def SyntaxNode.replace_with : SyntaxNode → GreenElement → Option GreenElement
  | .root g, replacement =>
    if g.kind = replacement.kind then some replacement else none
  | .child p me _, replacement =>
    if ((p.green.children[me]?).getD default).kind = replacement.kind then
      if me < p.green.children.length then
        p.replace_with (.node p.green.kind (replaceAt p.green.children me replacement))
      else none
    else none

/-- `SyntaxToken::replace_with`: substitute this token in the parent's
child array and bubble up through the parent's `replace_with`. -/
def SyntaxToken.replace_with (t : SyntaxToken) (replacement : GreenElement) :
    Option GreenElement :=
  if t.green.kind = replacement.kind then
    if t.index < t.parent.green.children.length then
      t.parent.replace_with (.node t.parent.green.kind
        (replaceAt t.parent.green.children t.index replacement))
    else none
  else none

/-- Root green tree an overlay node belongs to. -/
def SyntaxNode.rootGreen : SyntaxNode → GreenElement
  | .root g => g
  | .child p _ _ => p.rootGreen

/-- `SyntaxElement::token_at_offset` with the recursive node case
abstracted (`rec` is the node-level search one fuel step down). -/
def tokenAtOffsetElWith (rec : SyntaxNode → Option (TokenAtOffset SyntaxToken))
    (el : SyntaxElement) (offset : Nat) : Option (TokenAtOffset SyntaxToken) :=
  if el.text_range.start ≤ offset ∧ offset ≤ el.text_range.stop then
    match el with
    | .tokenEl t => some (.single t)
    | .nodeEl node => rec node
  else none

/-- `SyntaxNode::token_at_offset`, fueled.  `none` models a panic (the
offset precondition `assert!`, the `unwrap` on a missing candidate, the
at-most-two `assert!`, or the `unreachable!` in the `Between` merge);
`some r` is the returned `TokenAtOffset`. -/
def tokenAtOffsetNodeGo : Nat → SyntaxNode → Nat → Option (TokenAtOffset SyntaxToken)
  | 0, _, _ => none
  | fuel + 1, n, offset =>
    let range := n.text_range
    if range.start ≤ offset ∧ offset ≤ range.stop then
      if range.isEmpty then some TokenAtOffset.none
      else
        let cand := n.children_with_tokens.filter (fun child =>
          let cr := child.text_range
          !cr.isEmpty && (decide (cr.start ≤ offset) && decide (offset ≤ cr.stop)))
        match cand with
        | [] => none
        | [l] =>
          tokenAtOffsetElWith (fun m => tokenAtOffsetNodeGo fuel m offset) l offset
        | [l, r] =>
          match tokenAtOffsetElWith (fun m => tokenAtOffsetNodeGo fuel m offset) l offset,
              tokenAtOffsetElWith (fun m => tokenAtOffsetNodeGo fuel m offset) r offset with
          | some (.single lt), some (.single rt) => some (.between lt rt)
          | _, _ => none
        | _ :: _ :: _ :: _ => none
    else none

/-- Public `SyntaxNode::token_at_offset` with sufficient fuel. -/
def SyntaxNode.token_at_offset (n : SyntaxNode) (offset : Nat) :
    Option (TokenAtOffset SyntaxToken) :=
  tokenAtOffsetNodeGo (n.green.depth + 1) n offset

/-- `SyntaxNode::covering_node` loop, fueled.  `none` models the
`assert!` that the range is a subrange of the current element (or fuel
exhaustion, which the wrapper's fuel rules out). -/
def coveringGo : Nat → SyntaxElement → TextRange → Option SyntaxElement
  | 0, _, _ => none
  | fuel + 1, res, range =>
    if range.is_subrange res.text_range then
      match res with
      | .tokenEl _ => some res
      | .nodeEl node =>
        match node.children_with_tokens.find?
            (fun child => range.is_subrange child.text_range) with
        | some c => coveringGo fuel c range
        | none => some res
    else none

/-- Public `SyntaxNode::covering_node` with sufficient fuel. -/
def SyntaxNode.covering_node (n : SyntaxNode) (range : TextRange) :
    Option SyntaxElement :=
  coveringGo (n.green.depth + 1) (.nodeEl n) range

/-- The successor closure of `SyntaxNode::preorder_with_tokens`.  The
`parent().unwrap()` of the source can only panic off the verified
domain; a missing parent stops the iterator here. -/
def preorderWTStep (start : SyntaxElement) (pos : WalkEvent SyntaxElement) :
    Option (WalkEvent SyntaxElement) :=
  match pos with
  | .enter el =>
    match el with
    | .nodeEl node =>
      match node.first_child_or_token with
      | some child => some (.enter child)
      | none => some (.leave (.nodeEl node))
    | .tokenEl t => some (.leave (.tokenEl t))
  | .leave el =>
    if SyntaxElement.eqv el start then none
    else
      match el.next_sibling_or_token with
      | some sibling => some (.enter sibling)
      | none =>
        match el.parent with
        | some p => some (.leave (.nodeEl p))
        | none => none

/-- `iter::successors(some a, f)` truncated to `fuel + 1` elements. -/
def successorsList {α : Type} (f : α → Option α) : Nat → α → List α
  | 0, a => [a]
  | fuel + 1, a =>
    a :: (match f a with
          | none => []
          | some b => successorsList f fuel b)

/-- Public `SyntaxNode::preorder_with_tokens`, materialized as the list
of emitted events (fuel `2 * count` covers the full walk). -/
def SyntaxNode.preorder_with_tokens (n : SyntaxNode) : List (WalkEvent SyntaxElement) :=
  successorsList (preorderWTStep (.nodeEl n)) (2 * n.green.count)
    (.enter (.nodeEl n))

/-- `FREE_LIST_LEN` in `cursor.rs`: capacity of the overlay node pool. -/
def FREE_LIST_LEN : Nat := 128

/-- The role variants of a pooled record (`Kind` in `cursor.rs`). -/
inductive RecKind where
  | rootK (green : GreenElement)
  | childK (parent : SyntaxNode) (index : Nat) (offset : Nat)
  | freeK
  deriving DecidableEq

/-- A pooled overlay record (`NodeData` in `cursor.rs`): role plus the
raw green pointer (dangling — here `default` — while on the free list). -/
structure NodeData where
  kind : RecKind
  green : GreenElement
  deriving DecidableEq

/-- The thread-local pool (`FreeList` in `cursor.rs`): a singly linked
list of free records with a tracked length. -/
structure FreeList where
  first_free : List NodeData
  len : Nat
  deriving DecidableEq

namespace FreeList

/-- `FreeList::try_push`: link the record onto the free list (setting
its role to `Free`) unless the pool already holds `FREE_LIST_LEN`
records, in which case the record is dropped to the allocator. -/
def try_push (fl : FreeList) (nd : NodeData) : FreeList :=
  if FREE_LIST_LEN ≤ fl.len then fl
  else ⟨{ nd with kind := .freeK } :: fl.first_free, fl.len + 1⟩

/-- `FreeList::pop`: unlink and return the first free record. -/
def pop (fl : FreeList) : Option (NodeData × FreeList) :=
  match fl.first_free with
  | [] => none
  | nd :: rest => some (nd, ⟨rest, fl.len - 1⟩)

/-- Helper for `FreeList::new`: push `k` fresh free records. -/
def pushN : Nat → FreeList → FreeList
  | 0, fl => fl
  | k + 1, fl => pushN k (fl.try_push ⟨.freeK, default⟩)

/-- `FreeList::new`: pre-populate with `FREE_LIST_LEN` free records. -/
def new : FreeList := pushN FREE_LIST_LEN ⟨[], 0⟩

end FreeList

/-- `NodeData::new`: acquire a record, preferring a recycled one; both
fields are overwritten with the requested role and green pointer.  The
caller's `unwrap_or_else` fallback (fresh allocation) makes acquisition
infallible. -/
def NodeData.newRec (fl : FreeList) (kind : RecKind) (green : GreenElement) :
    NodeData × FreeList :=
  match fl.pop with
  | some (_, fl') => (⟨kind, green⟩, fl')
  | none => (⟨kind, green⟩, fl)

/-- `NodeData::delete`: when the dropped handle holds the last reference
(`Rc::get_mut` succeeds — modelled as an oracle input, since reference
counts live outside the model), reset the role and offer the record to
the pool; otherwise do nothing. -/
def NodeData.delete (fl : FreeList) (isLastRef : Bool) (nd : NodeData) : FreeList :=
  if isLastRef then fl.try_push { nd with kind := .freeK } else fl

/-- One pool-affecting event: an overlay-node acquisition or a drop. -/
inductive PoolOp where
  | acquire (kind : RecKind) (green : GreenElement)
  | release (isLastRef : Bool) (nd : NodeData)

/-- Apply a sequence of acquisitions and drops to the pool. -/
def applyPoolOps (fl : FreeList) : List PoolOp → FreeList
  | [] => fl
  | .acquire k g :: ops => applyPoolOps (NodeData.newRec fl k g).2 ops
  | .release last nd :: ops => applyPoolOps (NodeData.delete fl last nd) ops

/-- Well-formedness of an overlay node (the invariants of spec §3): the
green pointer of a child aliases the parent's green child at its index,
which is a node, and the stored offset is the parent's offset plus the
lengths of the preceding siblings. -/
inductive SyntaxNode.Valid : SyntaxNode → Prop
  | root (g : GreenElement) (hg : g.isNode = true) : Valid (.root g)
  | child (p : SyntaxNode) (i off : Nat) (e : GreenElement)
      (hp : Valid p)
      (he : p.green.children[i]? = some e)
      (hnode : e.isNode = true)
      (hoff : off = p.startOffset +
        GreenElement.textLenList (p.green.children.take i)) :
      Valid (.child p i off)

/-- Well-formedness of an overlay token: valid parent, token-kind green
child at the index, correct absolute offset. -/
structure SyntaxToken.Valid (t : SyntaxToken) : Prop where
  parent_valid : t.parent.Valid
  is_tok : ∃ k s, t.parent.green.children[t.index]? = some (.token k s)
  off_eq : t.offset = t.parent.startOffset +
    GreenElement.textLenList (t.parent.green.children.take t.index)

/-- Well-formedness of an overlay element. -/
def SyntaxElement.Valid : SyntaxElement → Prop
  | .nodeEl n => n.Valid
  | .tokenEl t => t.Valid

/-- Scenario S1 of the spec: root with tokens `A("x")`, `B("yy")`,
`C("z")`. -/
def tokA : GreenElement := .token 1 "x"

def tokB : GreenElement := .token 2 "yy"

def tokC : GreenElement := .token 3 "z"

def s1Green : GreenElement := .node 0 [tokA, tokB, tokC]

def s1Root : SyntaxNode := .root s1Green

/-! ### Basic well-formedness lemmas -/

theorem SyntaxNode.Valid.green_isNode {n : SyntaxNode} (h : n.Valid) :
    n.green.isNode = true := by
  cases h with
  | root g hg => exact hg
  | child p i off e hp he hnode hoff =>
    simpa [SyntaxNode.green, he] using hnode

theorem GreenElement.eta_node {g : GreenElement} (h : g.isNode = true) :
    GreenElement.node g.kind g.children = g := by
  cases g with
  | node k cs => rfl
  | token k s => simp [GreenElement.isNode] at h

/-! ### The overlay node pool (claim C9) -/

/-- Pool invariant: the tracked length matches the list and stays within
capacity. -/
def FreeList.Inv (fl : FreeList) : Prop :=
  fl.len = fl.first_free.length ∧ fl.len ≤ FREE_LIST_LEN

theorem FreeList.Inv.try_push {fl : FreeList} (h : fl.Inv) (nd : NodeData) :
    (fl.try_push nd).Inv := by
  unfold FreeList.try_push
  split
  · exact h
  · next hlt =>
    exact ⟨by simp [h.1], by simp; omega⟩

theorem FreeList.inv_pushN : ∀ (k : Nat) (fl : FreeList), fl.Inv →
    (FreeList.pushN k fl).Inv
  | 0, fl, h => h
  | k + 1, fl, h => FreeList.inv_pushN k _ (h.try_push _)

theorem FreeList.inv_new : FreeList.new.Inv :=
  FreeList.inv_pushN _ _ ⟨rfl, by simp [FREE_LIST_LEN]⟩

theorem NodeData.inv_newRec {fl : FreeList} (h : fl.Inv) (k : RecKind)
    (g : GreenElement) : (NodeData.newRec fl k g).2.Inv := by
  unfold NodeData.newRec FreeList.pop
  cases hf : fl.first_free with
  | nil => exact h
  | cons nd rest =>
    have h1 := h.1
    have h2 := h.2
    rw [hf] at h1
    simp at h1
    exact ⟨by simp [h1], by simp; omega⟩

theorem NodeData.inv_delete {fl : FreeList} (h : fl.Inv) (b : Bool)
    (nd : NodeData) : (NodeData.delete fl b nd).Inv := by
  unfold NodeData.delete
  split
  · exact h.try_push _
  · exact h

theorem applyPoolOps_inv : ∀ (ops : List PoolOp) (fl : FreeList), fl.Inv →
    (applyPoolOps fl ops).Inv
  | [], _, h => h
  | .acquire k g :: ops, fl, h =>
    applyPoolOps_inv ops _ (NodeData.inv_newRec h k g)
  | .release b nd :: ops, fl, h =>
    applyPoolOps_inv ops _ (NodeData.inv_delete h b nd)

/-- C9: the overlay node pool never fails and its free list never holds
more than `FREE_LIST_LEN = 128` records.  After any sequence of
acquisitions and drops the pool holds at most 128 free records; a drop
releases to the pool only when it holds the last reference and the pool
is below capacity (otherwise the pool is unchanged and the record goes
to the allocator); and acquisition always succeeds, returning a record
carrying exactly the requested role and green pointer regardless of the
pool state — so subsequent navigation is unaffected by pooling. -/
theorem claim_C9 :
    (∀ ops : List PoolOp,
      (applyPoolOps FreeList.new ops).first_free.length ≤ FREE_LIST_LEN ∧
      (applyPoolOps FreeList.new ops).len ≤ FREE_LIST_LEN) ∧
    (∀ (fl : FreeList) (k : RecKind) (g : GreenElement),
      (NodeData.newRec fl k g).1 = ⟨k, g⟩) ∧
    (∀ (fl : FreeList) (nd : NodeData), NodeData.delete fl false nd = fl) ∧
    (∀ (fl : FreeList) (nd : NodeData), FREE_LIST_LEN ≤ fl.len →
      NodeData.delete fl true nd = fl) ∧
    (∀ (fl : FreeList) (nd : NodeData), fl.len < FREE_LIST_LEN →
      NodeData.delete fl true nd =
        ⟨{ nd with kind := .freeK } :: fl.first_free, fl.len + 1⟩) := by
  refine ⟨?_, ?_, ?_, ?_, ?_⟩
  · intro ops
    have h := applyPoolOps_inv ops FreeList.new FreeList.inv_new
    exact ⟨h.1 ▸ h.2, h.2⟩
  · intro fl k g
    unfold NodeData.newRec
    cases fl.pop <;> rfl
  · intro fl nd
    rfl
  · intro fl nd h
    simp [NodeData.delete, FreeList.try_push, h]
  · intro fl nd h
    simp [NodeData.delete, FreeList.try_push, Nat.not_le.mpr h]

/-- Witness for C9 at concrete inputs. -/
theorem claim_C9_witness :
    (applyPoolOps FreeList.new
      [.acquire (.rootK s1Green) s1Green, .release true ⟨.rootK s1Green, s1Green⟩]
      ).first_free.length ≤ FREE_LIST_LEN ∧
    NodeData.delete ⟨[], 0⟩ true ⟨.rootK s1Green, s1Green⟩ =
      ⟨[⟨.freeK, s1Green⟩], 1⟩ := by
  constructor
  · exact (claim_C9.1 _).1
  · exact claim_C9.2.2.2.2 ⟨[], 0⟩ ⟨.rootK s1Green, s1Green⟩ (by decide)

/-! ### Structural replacement (claim C4) -/

theorem replaceAt_self : ∀ (l : List GreenElement) (me : Nat) (e : GreenElement),
    l[me]? = some e → replaceAt l me e = l
  | [], me, e, h => by simp at h
  | c :: cs, 0, e, h => by
    simp at h
    simp [replaceAt, h]
  | c :: cs, me + 1, e, h => by
    simp at h
    simp [replaceAt, replaceAt_self cs me e h]

/-- C4: for every well-formed overlay node `n`, replacing `n` by its own
green node rebuilds a green tree structurally equal to the original root
green tree.  (The model is purely functional, mirroring the immutability
of the green layer: `replace_with` only constructs new green nodes, so
the original tree and every overlay into it are untouched by
construction.) -/
theorem claim_C4 : ∀ n : SyntaxNode, n.Valid →
    n.replace_with n.green = some n.rootGreen := by
  intro n
  induction n with
  | root g => intro _; simp [SyntaxNode.replace_with, SyntaxNode.rootGreen, SyntaxNode.green]
  | child p me off ih =>
    intro hv
    cases hv with
    | child _ _ _ e hp he hnode hoff =>
      have hg : SyntaxNode.green (.child p me off) = e := by
        simp [SyntaxNode.green, he]
      have hlt : me < p.green.children.length := by
        exact (List.getElem?_eq_some.mp he).1
      rw [SyntaxNode.replace_with, hg]
      rw [if_pos (by rw [hg.symm.trans rfl]; simp [SyntaxNode.green, he])]
      rw [if_pos hlt]
      rw [replaceAt_self _ _ _ he, GreenElement.eta_node hp.green_isNode]
      exact ih hp

/-- Witness for C4 on the S1 root. -/
theorem claim_C4_witness :
    s1Root.Valid ∧ s1Root.replace_with s1Root.green = some s1Root.rootGreen :=
  ⟨.root _ rfl, claim_C4 s1Root (.root _ rfl)⟩

/-! ### Overlay equality and hashing (claim C5)

For overlay nodes, equality compares the green node and the absolute
start offset, exactly as the claim states.  For overlay tokens the
derived equality is fieldwise (parent by node equality, index, offset);
it implies "same green element and same start offset" but is *not*
implied by it: two zero-length tokens with identical green data sitting
under different parents can share both green and offset while comparing
unequal.  The tree below exhibits this. -/

def c5Green : GreenElement := .node 9 [.node 4 [.token 5 ""], .node 6 [.token 5 ""]]

def c5t1 : SyntaxToken := ⟨.child (.root c5Green) 0 0, 0, 0⟩

def c5t2 : SyntaxToken := ⟨.child (.root c5Green) 1 0, 0, 0⟩

/-- C5 fails as stated: `c5t1` and `c5t2` are well-formed overlay tokens
referring to the same green element (`.token 5 ""`) with the same
absolute start offset `0`, yet token equality (which compares parents)
rejects them. -/
theorem claim_C5_counterexample :
    c5t1.Valid ∧ c5t2.Valid ∧
    c5t1.green = c5t2.green ∧ c5t1.text_range.start = c5t2.text_range.start ∧
    SyntaxToken.eqv c5t1 c5t2 = false := by
  refine ⟨⟨.child _ _ _ _ (.root _ rfl) rfl rfl rfl, ?_, ?_⟩,
    ⟨.child _ _ _ _ (.root _ rfl) rfl rfl rfl, ?_, ?_⟩, ?_, ?_, ?_⟩ <;>
    first
      | exact ⟨5, "", rfl⟩
      | rfl
      | decide

/-- C5, amended: overlay-node equality holds iff the green nodes and the
absolute start offsets agree; overlay-token equality is fieldwise
(parents equal as overlay nodes, same index, same offset) and implies
agreement of green element and start offset; equality is an equivalence
relation on elements; equal overlays have equal hash input; and two
independently materialized overlays for the same position — here the
head of `children` versus `first_child` — coincide. -/
theorem claim_C5 :
    (∀ a b : SyntaxNode, SyntaxNode.eqv a b = true ↔
      (a.green = b.green ∧ a.text_range.start = b.text_range.start)) ∧
    (∀ a b : SyntaxToken, SyntaxToken.eqv a b = true ↔
      (SyntaxNode.eqv a.parent b.parent = true ∧ a.index = b.index ∧
        a.offset = b.offset)) ∧
    (∀ a b : SyntaxToken, SyntaxToken.eqv a b = true →
      a.green = b.green ∧ a.text_range.start = b.text_range.start) ∧
    (∀ a : SyntaxElement, SyntaxElement.eqv a a = true) ∧
    (∀ a b : SyntaxElement, SyntaxElement.eqv a b = true →
      SyntaxElement.eqv b a = true) ∧
    (∀ a b c : SyntaxElement, SyntaxElement.eqv a b = true →
      SyntaxElement.eqv b c = true → SyntaxElement.eqv a c = true) ∧
    (∀ a b : SyntaxNode, SyntaxNode.eqv a b = true → a.hashData = b.hashData) ∧
    (∀ a b : SyntaxToken, SyntaxToken.eqv a b = true → a.hashData = b.hashData) ∧
    (∀ n : SyntaxNode, n.childrenNodes.head? = n.first_child) := by
  have hnode : ∀ a b : SyntaxNode, SyntaxNode.eqv a b = true ↔
      (a.green = b.green ∧ a.text_range.start = b.text_range.start) := by
    intro a b
    simp [SyntaxNode.eqv]
  have htok : ∀ a b : SyntaxToken, SyntaxToken.eqv a b = true ↔
      (SyntaxNode.eqv a.parent b.parent = true ∧ a.index = b.index ∧
        a.offset = b.offset) := by
    intro a b
    simp [SyntaxToken.eqv, and_assoc]
  have htokgreen : ∀ a b : SyntaxToken, SyntaxToken.eqv a b = true →
      a.green = b.green ∧ a.text_range.start = b.text_range.start := by
    intro a b h
    rcases (htok a b).mp h with ⟨hp, hi, ho⟩
    rcases (hnode _ _).mp hp with ⟨hg, _⟩
    constructor
    · unfold SyntaxToken.green
      rw [hg, hi]
    · simp [SyntaxToken.text_range, TextRange.offset_len, ho]
  refine ⟨hnode, htok, htokgreen, ?_, ?_, ?_, ?_, ?_, ?_⟩
  · intro a
    cases a with
    | nodeEl n => exact (hnode n n).mpr ⟨rfl, rfl⟩
    | tokenEl t => exact (htok t t).mpr ⟨(hnode _ _).mpr ⟨rfl, rfl⟩, rfl, rfl⟩
  · intro a b h
    cases a <;> cases b <;> simp [SyntaxElement.eqv] at h ⊢
    · rcases (hnode _ _).mp h with ⟨h1, h2⟩
      exact (hnode _ _).mp ((hnode _ _).mpr ⟨h1.symm, h2.symm⟩) |> fun h =>
        (hnode _ _).mpr ⟨h1.symm, h2.symm⟩
    · rcases (htok _ _).mp h with ⟨hp, hi, ho⟩
      rcases (hnode _ _).mp hp with ⟨h1, h2⟩
      exact (htok _ _).mpr ⟨(hnode _ _).mpr ⟨h1.symm, h2.symm⟩, hi.symm, ho.symm⟩
  · intro a b c hab hbc
    cases a <;> cases b <;> cases c <;> simp [SyntaxElement.eqv] at hab hbc ⊢
    · rcases (hnode _ _).mp hab with ⟨h1, h2⟩
      rcases (hnode _ _).mp hbc with ⟨h3, h4⟩
      exact (hnode _ _).mpr ⟨h1.trans h3, h2.trans h4⟩
    · rcases (htok _ _).mp hab with ⟨hp, hi, ho⟩
      rcases (htok _ _).mp hbc with ⟨hp', hi', ho'⟩
      rcases (hnode _ _).mp hp with ⟨h1, h2⟩
      rcases (hnode _ _).mp hp' with ⟨h3, h4⟩
      exact (htok _ _).mpr
        ⟨(hnode _ _).mpr ⟨h1.trans h3, h2.trans h4⟩, hi.trans hi', ho.trans ho'⟩
  · intro a b h
    rcases (hnode a b).mp h with ⟨h1, h2⟩
    simp [SyntaxNode.hashData, h1, h2]
  · intro a b h
    rcases (htok a b).mp h with ⟨hp, hi, ho⟩
    rcases (hnode _ _).mp hp with ⟨h1, h2⟩
    simp [SyntaxToken.hashData, SyntaxNode.hashData, h1, h2, hi, ho]
  · intro n
    unfold SyntaxNode.childrenNodes SyntaxNode.first_child GreenElement.children_from
    rw [List.drop_zero]
    cases filterNodes (childrenFromAux n.green.children 0 n.text_range.start) <;> rfl

/-- Witness for C5 on concrete S1 tokens. -/
theorem claim_C5_witness :
    SyntaxToken.eqv ⟨s1Root, 1, 1⟩ ⟨s1Root, 1, 1⟩ = true ∧
    (SyntaxToken.green ⟨s1Root, 1, 1⟩ = SyntaxToken.green ⟨s1Root, 1, 1⟩ ∧
      (SyntaxToken.text_range ⟨s1Root, 1, 1⟩).start =
        (SyntaxToken.text_range ⟨s1Root, 1, 1⟩).start) :=
  ⟨by decide, claim_C5.2.2.1 _ _ (by decide)⟩

/-! ### Error handling (claim C8) -/

/-- C8: an out-of-precondition offset makes `token_at_offset` panic (the
fatal `assert!`, modelled as `none`), while ordinary negative results —
an empty range with an in-range offset, no sibling for the root, no
children — are reported as absent optionals (`TokenAtOffset::None`
respectively `Option::none`), not as errors. -/
theorem claim_C8 :
    (∀ (n : SyntaxNode) (off : Nat),
      ¬ (n.text_range.start ≤ off ∧ off ≤ n.text_range.stop) →
      n.token_at_offset off = none) ∧
    (∀ (n : SyntaxNode) (off : Nat),
      n.text_range.isEmpty = true →
      n.text_range.start ≤ off → off ≤ n.text_range.stop →
      n.token_at_offset off = some TokenAtOffset.none) ∧
    (∀ g : GreenElement, (SyntaxNode.root g).next_sibling = none ∧
      (SyntaxNode.root g).prev_sibling = none ∧
      (SyntaxNode.root g).next_sibling_or_token = none ∧
      (SyntaxNode.root g).prev_sibling_or_token = none) ∧
    (∀ n : SyntaxNode, n.green.children = [] →
      n.first_child = none ∧ n.first_child_or_token = none ∧
      n.last_child = none ∧ n.last_child_or_token = none) := by
  refine ⟨?_, ?_, ?_, ?_⟩
  · intro n off h
    unfold SyntaxNode.token_at_offset tokenAtOffsetNodeGo
    simp only []
    rw [if_neg h]
  · intro n off hemp h1 h2
    unfold SyntaxNode.token_at_offset tokenAtOffsetNodeGo
    simp only []
    rw [if_pos ⟨h1, h2⟩, if_pos hemp]
  · intro g
    exact ⟨rfl, rfl, rfl, rfl⟩
  · intro n h
    unfold SyntaxNode.first_child SyntaxNode.first_child_or_token
      SyntaxNode.last_child SyntaxNode.last_child_or_token
      GreenElement.children_from GreenElement.children_to
    rw [h]
    exact ⟨rfl, rfl, rfl, rfl⟩

/-- Witness for C8: concrete panics and absent options on S1 and on an
empty root. -/
theorem claim_C8_witness :
    s1Root.token_at_offset 5 = none ∧
    (SyntaxNode.root (.node 7 [])).token_at_offset 0 = some TokenAtOffset.none ∧
    (SyntaxNode.root (.node 7 [])).first_child = none :=
  ⟨claim_C8.1 s1Root 5 (by decide),
   claim_C8.2.1 (SyntaxNode.root (.node 7 [])) 0 (by decide) (by decide) (by decide),
   (claim_C8.2.2.2 (SyntaxNode.root (.node 7 [])) rfl).1⟩

/-! ### Child iterator characterization -/

open GreenElement in
theorem textLenList_append : ∀ l1 l2 : List GreenElement,
    textLenList (l1 ++ l2) = textLenList l1 + textLenList l2
  | [], l2 => by simp [textLenList]
  | c :: cs, l2 => by
    simp [textLenList, textLenList_append cs l2, Nat.add_assoc]

open GreenElement in
theorem textLenList_take_succ {l : List GreenElement} {i : Nat}
    {e : GreenElement} (he : l[i]? = some e) :
    textLenList (l.take (i + 1)) = textLenList (l.take i) + e.text_len := by
  rw [List.take_succ, he]
  simp [textLenList_append, textLenList]

theorem childrenFromAux_getElem? : ∀ (l : List GreenElement) (i b k : Nat),
    (childrenFromAux l i b)[k]? =
      (l[k]?).map (fun e => (e, i + k, b + GreenElement.textLenList (l.take k)))
  | [], i, b, k => by simp [childrenFromAux]
  | e :: es, i, b, 0 => by simp [childrenFromAux, GreenElement.textLenList]
  | e :: es, i, b, k + 1 => by
    simp only [childrenFromAux, List.getElem?_cons_succ,
      childrenFromAux_getElem? es (i + 1) (b + e.text_len) k, List.take_succ_cons]
    cases es[k]? with
    | none => rfl
    | some x =>
      simp [GreenElement.textLenList]
      omega

theorem childrenFromAux_length : ∀ (l : List GreenElement) (i b : Nat),
    (childrenFromAux l i b).length = l.length
  | [], _, _ => rfl
  | e :: es, i, b => by
    simp [childrenFromAux, childrenFromAux_length es (i + 1) (b + e.text_len)]

theorem childrenFromAux_append : ∀ (l1 l2 : List GreenElement) (i b : Nat),
    childrenFromAux (l1 ++ l2) i b =
      childrenFromAux l1 i b ++
        childrenFromAux l2 (i + l1.length) (b + GreenElement.textLenList l1)
  | [], l2, i, b => by simp [childrenFromAux, GreenElement.textLenList]
  | c :: cs, l2, i, b => by
    simp only [List.cons_append, childrenFromAux, childrenFromAux_append cs l2]
    simp [GreenElement.textLenList]
    rw [childrenFromAux_append cs l2]
    congr 2
    · omega
    · omega

/-- `children_to` over a full reversed prefix is the reverse of
`children_from` over that prefix. -/
theorem childrenToAux_reverse (l : List GreenElement) (b : Nat) :
    childrenToAux l.reverse l.length (b + GreenElement.textLenList l) =
      (childrenFromAux l 0 b).reverse := by
  induction l using List.reverseRecOn with
  | nil => simp [childrenToAux, childrenFromAux]
  | append_singleton l e ih =>
    rw [List.reverse_append]
    simp only [List.reverse_singleton, List.singleton_append]
    rw [childrenToAux, childrenFromAux_append]
    have hlen : GreenElement.textLenList (l ++ [e]) =
        GreenElement.textLenList l + e.text_len := by
      simp [textLenList_append, GreenElement.textLenList]
    rw [hlen]
    have harith : b + (GreenElement.textLenList l + e.text_len) - e.text_len =
        b + GreenElement.textLenList l := by omega
    rw [harith]
    simp only [List.length_append, List.length_singleton]
    have hidx : l.length + 1 - 1 = l.length := by omega
    rw [hidx, ih]
    simp [childrenFromAux, childrenFromAux_length]

/-- Membership in a `children_from` walk determines the element, the
index bound and the offset formula. -/
theorem mem_children_from {g : GreenElement} {s : Nat} {b : Nat}
    {e : GreenElement} {j o : Nat}
    (hmem : (e, j, o) ∈ g.children_from s (b + GreenElement.textLenList (g.children.take s))) :
    g.children[j]? = some e ∧
      o = b + GreenElement.textLenList (g.children.take j) ∧ s ≤ j := by
  unfold GreenElement.children_from at hmem
  rcases List.getElem?_of_mem hmem with ⟨k, hk⟩
  rw [childrenFromAux_getElem?] at hk
  cases hg : (g.children.drop s)[k]? with
  | none => rw [hg] at hk; simp at hk
  | some x =>
    rw [hg] at hk
    simp at hk
    rcases hk with ⟨hx, hj, ho⟩
    subst hx hj
    rw [List.getElem?_drop] at hg
    refine ⟨hg, ?_, by omega⟩
    rw [← ho]
    have : g.children.take (s + k) = g.children.take s ++ (g.children.drop s).take k :=
      (List.take_add _ _ _).symm ▸ rfl
    rw [this, textLenList_append]
    omega

/-- Membership in a `children_to` walk determines the element, the index
bound and the offset formula. -/
theorem mem_children_to {g : GreenElement} {eidx b : Nat}
    (he : eidx ≤ g.children.length) {e : GreenElement} {j o : Nat}
    (hmem : (e, j, o) ∈ g.children_to eidx (b + GreenElement.textLenList (g.children.take eidx))) :
    g.children[j]? = some e ∧
      o = b + GreenElement.textLenList (g.children.take j) ∧ j < eidx := by
  unfold GreenElement.children_to at hmem
  have hlen : (g.children.take eidx).length = eidx := by
    simp [List.length_take]
    omega
  have hrev := childrenToAux_reverse (g.children.take eidx) b
  rw [hlen] at hrev
  rw [hrev, List.mem_reverse] at hmem
  rcases List.getElem?_of_mem hmem with ⟨k, hk⟩
  rw [childrenFromAux_getElem?] at hk
  cases hg : (g.children.take eidx)[k]? with
  | none => rw [hg] at hk; simp at hk
  | some x =>
    rw [hg] at hk
    simp at hk
    rcases hk with ⟨hx, hj, ho⟩
    subst hx hj
    have hkx : k < eidx := by
      have := List.getElem?_eq_some.mp hg
      rcases this with ⟨hlt, _⟩
      omega
    rw [List.getElem?_take, if_pos hkx] at hg
    refine ⟨hg, ?_, by omega⟩
    have htt : List.take k (List.take eidx g.children) = List.take k g.children := by
      rw [List.take_take]
      congr 1
      omega
    rw [← ho, htt]

theorem SyntaxNode.text_range_start (n : SyntaxNode) :
    n.text_range.start = n.startOffset := rfl

/-- Index of an overlay node among its siblings (0 for the root). -/
def SyntaxNode.indexOf : SyntaxNode → Nat
  | .root _ => 0
  | .child _ i _ => i

/-- An element built by `SyntaxElement::new` from a genuine green child
with the correct offset is well-formed. -/
theorem valid_new {n : SyntaxNode} (hv : n.Valid) {k : Nat} {e : GreenElement}
    (he : n.green.children[k]? = some e) :
    (SyntaxElement.new e n k
      (n.startOffset + GreenElement.textLenList (n.green.children.take k))).Valid := by
  cases e with
  | node kk cs =>
    exact SyntaxNode.Valid.child n k _ _ hv he rfl rfl
  | token kk s =>
    exact ⟨hv, ⟨kk, s, he⟩, rfl⟩

/-- `SyntaxElement.new` produces an element whose recorded index and
start offset are the given ones. -/
theorem new_index_start (e : GreenElement) (n : SyntaxNode) (k off : Nat) :
    (SyntaxElement.new e n k off).index = k ∧
      (SyntaxElement.new e n k off).text_range.start = off := by
  cases e <;> exact ⟨rfl, rfl⟩

theorem GreenElement.text_len_eq_children {g : GreenElement}
    (h : g.isNode = true) :
    g.text_len = GreenElement.textLenList g.children := by
  cases g with
  | node k cs => rfl
  | token k s => simp [GreenElement.isNode] at h

/-- Specialization of `mem_children_from` to a walk starting at child 0
with the base offset itself. -/
theorem mem_childrenFromAux_zero {g : GreenElement} {b : Nat}
    {e : GreenElement} {j o : Nat}
    (hmem : (e, j, o) ∈ childrenFromAux g.children 0 b) :
    g.children[j]? = some e ∧
      o = b + GreenElement.textLenList (g.children.take j) := by
  have hmem' : (e, j, o) ∈
      g.children_from 0 (b + GreenElement.textLenList (g.children.take 0)) := by
    unfold GreenElement.children_from
    rw [List.drop_zero]
    simpa [GreenElement.textLenList]
  exact ⟨(mem_children_from hmem').1, (mem_children_from hmem').2.1⟩

/-- The target start-offset formula of claim C2. -/
def childStart (p : SyntaxNode) (i : Nat) : Nat :=
  p.text_range.start + GreenElement.textLenList (p.green.children.take i)

theorem cwt_mem_valid {n : SyntaxNode} (hv : n.Valid) :
    ∀ el ∈ n.children_with_tokens,
      el.Valid ∧ el.text_range.start = childStart n el.index := by
  intro el hel
  rcases List.mem_map.mp hel with ⟨⟨e, j, o⟩, hmem, rfl⟩
  rcases mem_childrenFromAux_zero hmem with ⟨he, ho⟩
  constructor
  · rw [ho]
    exact valid_new hv he
  · rcases new_index_start e n j o with ⟨hi, hs⟩
    rw [hs, hi, ho]
    rfl

theorem childrenNodes_mem_valid {n : SyntaxNode} (hv : n.Valid) :
    ∀ c ∈ n.childrenNodes,
      c.Valid ∧ c.text_range.start = childStart n c.indexOf := by
  intro c hc
  rcases List.mem_map.mp hc with ⟨⟨e, j, o⟩, hmem, rfl⟩
  rcases List.mem_filter.mp hmem with ⟨hmem', hnode⟩
  rcases mem_childrenFromAux_zero hmem' with ⟨he, ho⟩
  constructor
  · rw [ho]
    exact SyntaxNode.Valid.child n j _ e hv he hnode rfl
  · rw [ho]
    rfl

theorem first_child_or_token_valid {n : SyntaxNode} (hv : n.Valid)
    {el : SyntaxElement} (h : n.first_child_or_token = some el) :
    el.Valid ∧ el.text_range.start = childStart n el.index := by
  unfold SyntaxNode.first_child_or_token at h
  cases hL : n.green.children_from 0 n.text_range.start with
  | nil => rw [hL] at h; exact absurd h (by simp)
  | cons t rest =>
    rw [hL] at h
    simp at h
    subst h
    have hmem : t ∈ n.green.children_from 0 n.text_range.start := by
      rw [hL]; exact List.mem_cons_self _ _
    obtain ⟨e, j, o⟩ := t
    unfold GreenElement.children_from at hmem
    rw [List.drop_zero] at hmem
    rcases mem_childrenFromAux_zero hmem with ⟨he, ho⟩
    constructor
    · rw [ho]
      exact valid_new hv he
    · rcases new_index_start e n j o with ⟨hi, hs⟩
      rw [hs, hi, ho]
      rfl

theorem first_child_valid {n : SyntaxNode} (hv : n.Valid)
    {c : SyntaxNode} (h : n.first_child = some c) :
    c.Valid ∧ c.text_range.start = childStart n c.indexOf := by
  unfold SyntaxNode.first_child at h
  cases hL : filterNodes (n.green.children_from 0 n.text_range.start) with
  | nil => rw [hL] at h; exact absurd h (by simp)
  | cons t rest =>
    rw [hL] at h
    simp at h
    subst h
    have hmem : t ∈ filterNodes (n.green.children_from 0 n.text_range.start) := by
      rw [hL]; exact List.mem_cons_self _ _
    rcases List.mem_filter.mp hmem with ⟨hmem', hnode⟩
    obtain ⟨e, j, o⟩ := t
    unfold GreenElement.children_from at hmem'
    rw [List.drop_zero] at hmem'
    rcases mem_childrenFromAux_zero hmem' with ⟨he, ho⟩
    constructor
    · rw [ho]
      exact SyntaxNode.Valid.child n j _ e hv he hnode rfl
    · rw [ho]
      rfl

theorem valid_stop_take_length {n : SyntaxNode} (hv : n.Valid) :
    n.text_range.stop = n.startOffset +
      GreenElement.textLenList (n.green.children.take n.green.children.length) := by
  rw [List.take_length]
  show n.startOffset + n.green.text_len = _
  rw [GreenElement.text_len_eq_children hv.green_isNode]

theorem last_child_or_token_valid {n : SyntaxNode} (hv : n.Valid)
    {el : SyntaxElement} (h : n.last_child_or_token = some el) :
    el.Valid ∧ el.text_range.start = childStart n el.index := by
  unfold SyntaxNode.last_child_or_token at h
  cases hL : n.green.children_to n.green.children.length n.text_range.stop with
  | nil => rw [hL] at h; exact absurd h (by simp)
  | cons t rest =>
    rw [hL] at h
    simp at h
    subst h
    have hmem : t ∈ n.green.children_to n.green.children.length n.text_range.stop := by
      rw [hL]; exact List.mem_cons_self _ _
    obtain ⟨e, j, o⟩ := t
    rw [valid_stop_take_length hv] at hmem
    rcases mem_children_to (Nat.le_refl _) hmem with ⟨he, ho, hj⟩
    constructor
    · rw [ho]
      exact valid_new hv he
    · rcases new_index_start e n j o with ⟨hi, hs⟩
      rw [hs, hi, ho]
      rfl

theorem last_child_valid {n : SyntaxNode} (hv : n.Valid)
    {c : SyntaxNode} (h : n.last_child = some c) :
    c.Valid ∧ c.text_range.start = childStart n c.indexOf := by
  unfold SyntaxNode.last_child at h
  cases hL : filterNodes (n.green.children_to n.green.children.length n.text_range.stop) with
  | nil => rw [hL] at h; exact absurd h (by simp)
  | cons t rest =>
    rw [hL] at h
    simp at h
    subst h
    have hmem : t ∈ filterNodes (n.green.children_to n.green.children.length n.text_range.stop) := by
      rw [hL]; exact List.mem_cons_self _ _
    rcases List.mem_filter.mp hmem with ⟨hmem', hnode⟩
    obtain ⟨e, j, o⟩ := t
    rw [valid_stop_take_length hv] at hmem'
    rcases mem_children_to (Nat.le_refl _) hmem' with ⟨he, ho, hj⟩
    constructor
    · rw [ho]
      exact SyntaxNode.Valid.child n j _ e hv he hnode rfl
    · rw [ho]
      rfl

/-- The stop offset of a well-formed child overlay matches the prefix
sum through its own index. -/
theorem child_stop_eq {p : SyntaxNode} {i off : Nat}
    (hv : (SyntaxNode.child p i off).Valid) :
    (SyntaxNode.child p i off).text_range.stop =
      p.startOffset + GreenElement.textLenList (p.green.children.take (i + 1)) := by
  cases hv with
  | child _ _ _ e hp he hnode hoff =>
    have hgreen : (SyntaxNode.child p i off).green = e := by
      simp [SyntaxNode.green, he]
    show off + (SyntaxNode.child p i off).green.text_len = _
    rw [hgreen, hoff, textLenList_take_succ he, Nat.add_assoc]

theorem next_sibling_valid {p : SyntaxNode} {i off : Nat}
    (hv : (SyntaxNode.child p i off).Valid) {m : SyntaxNode}
    (h : (SyntaxNode.child p i off).next_sibling = some m) :
    m.Valid ∧ m.parent = some p ∧
      m.text_range.start = childStart p m.indexOf ∧ i < m.indexOf := by
  simp only [SyntaxNode.next_sibling] at h
  have hp : p.Valid := by cases hv with | child _ _ _ e hp _ _ _ => exact hp
  cases hL : filterNodes
      (p.green.children_from (i + 1) (SyntaxNode.child p i off).text_range.stop) with
  | nil => rw [hL] at h; exact absurd h (by simp)
  | cons t rest =>
    rw [hL] at h
    simp at h
    subst h
    have hmem : t ∈ filterNodes
        (p.green.children_from (i + 1) (SyntaxNode.child p i off).text_range.stop) := by
      rw [hL]; exact List.mem_cons_self _ _
    rcases List.mem_filter.mp hmem with ⟨hmem', hnode⟩
    obtain ⟨e, j, o⟩ := t
    rw [child_stop_eq hv] at hmem'
    rcases mem_children_from hmem' with ⟨he, ho, hs⟩
    refine ⟨?_, rfl, ?_, by simp [SyntaxNode.indexOf]; omega⟩
    · rw [ho]
      exact SyntaxNode.Valid.child p j _ e hp he hnode rfl
    · rw [ho]
      rfl

theorem next_sibling_or_token_valid {p : SyntaxNode} {i off : Nat}
    (hv : (SyntaxNode.child p i off).Valid) {el : SyntaxElement}
    (h : (SyntaxNode.child p i off).next_sibling_or_token = some el) :
    el.Valid ∧ el.parent = some p ∧
      el.text_range.start = childStart p el.index ∧ i < el.index := by
  simp only [SyntaxNode.next_sibling_or_token] at h
  have hp : p.Valid := by cases hv with | child _ _ _ e hp _ _ _ => exact hp
  cases hL : p.green.children_from (i + 1) (SyntaxNode.child p i off).text_range.stop with
  | nil => rw [hL] at h; exact absurd h (by simp)
  | cons t rest =>
    rw [hL] at h
    simp at h
    subst h
    have hmem : t ∈ p.green.children_from (i + 1)
        (SyntaxNode.child p i off).text_range.stop := by
      rw [hL]; exact List.mem_cons_self _ _
    obtain ⟨e, j, o⟩ := t
    rw [child_stop_eq hv] at hmem
    rcases mem_children_from hmem with ⟨he, ho, hs⟩
    rcases new_index_start e p j o with ⟨hi, hst⟩
    refine ⟨?_, ?_, ?_, ?_⟩
    · rw [ho]
      exact valid_new hp he
    · cases e <;> rfl
    · rw [hst, hi, ho]
      rfl
    · rw [hi]
      omega

theorem prev_sibling_valid {p : SyntaxNode} {i off : Nat}
    (hv : (SyntaxNode.child p i off).Valid) {m : SyntaxNode}
    (h : (SyntaxNode.child p i off).prev_sibling = some m) :
    m.Valid ∧ m.parent = some p ∧
      m.text_range.start = childStart p m.indexOf ∧ m.indexOf < i := by
  simp only [SyntaxNode.prev_sibling] at h
  have hp : p.Valid := by cases hv with | child _ _ _ e hp _ _ _ => exact hp
  have hile : i ≤ p.green.children.length := by
    cases hv with
    | child _ _ _ e hp he _ _ =>
      exact Nat.le_of_lt (List.getElem?_eq_some.mp he).1
  have hstart : (SyntaxNode.child p i off).text_range.start =
      p.startOffset + GreenElement.textLenList (p.green.children.take i) := by
    cases hv with
    | child _ _ _ e hp he hnode hoff => exact hoff
  cases hL : filterNodes
      (p.green.children_to i (SyntaxNode.child p i off).text_range.start) with
  | nil => rw [hL] at h; exact absurd h (by simp)
  | cons t rest =>
    rw [hL] at h
    simp at h
    subst h
    have hmem : t ∈ filterNodes
        (p.green.children_to i (SyntaxNode.child p i off).text_range.start) := by
      rw [hL]; exact List.mem_cons_self _ _
    rcases List.mem_filter.mp hmem with ⟨hmem', hnode⟩
    obtain ⟨e, j, o⟩ := t
    rw [hstart] at hmem'
    rcases mem_children_to hile hmem' with ⟨he, ho, hj⟩
    refine ⟨?_, rfl, ?_, by simpa [SyntaxNode.indexOf]⟩
    · rw [ho]
      exact SyntaxNode.Valid.child p j _ e hp he hnode rfl
    · rw [ho]
      rfl

theorem prev_sibling_or_token_valid {p : SyntaxNode} {i off : Nat}
    (hv : (SyntaxNode.child p i off).Valid) {el : SyntaxElement}
    (h : (SyntaxNode.child p i off).prev_sibling_or_token = some el) :
    el.Valid ∧ el.parent = some p ∧
      el.text_range.start = childStart p el.index ∧ el.index < i := by
  simp only [SyntaxNode.prev_sibling_or_token] at h
  have hp : p.Valid := by cases hv with | child _ _ _ e hp _ _ _ => exact hp
  have hile : i ≤ p.green.children.length := by
    cases hv with
    | child _ _ _ e hp he _ _ =>
      exact Nat.le_of_lt (List.getElem?_eq_some.mp he).1
  have hstart : (SyntaxNode.child p i off).text_range.start =
      p.startOffset + GreenElement.textLenList (p.green.children.take i) := by
    cases hv with
    | child _ _ _ e hp he hnode hoff => exact hoff
  cases hL : p.green.children_to i (SyntaxNode.child p i off).text_range.start with
  | nil => rw [hL] at h; exact absurd h (by simp)
  | cons t rest =>
    rw [hL] at h
    simp at h
    subst h
    have hmem : t ∈ p.green.children_to i
        (SyntaxNode.child p i off).text_range.start := by
      rw [hL]; exact List.mem_cons_self _ _
    obtain ⟨e, j, o⟩ := t
    rw [hstart] at hmem
    rcases mem_children_to hile hmem with ⟨he, ho, hj⟩
    rcases new_index_start e p j o with ⟨hi, hst⟩
    refine ⟨?_, ?_, ?_, ?_⟩
    · rw [ho]
      exact valid_new hp he
    · cases e <;> rfl
    · rw [hst, hi, ho]
      rfl
    · rw [hi]
      exact hj

theorem token_green_eq {t : SyntaxToken} {k : Nat} {s : String}
    (hts : t.parent.green.children[t.index]? = some (.token k s)) :
    t.green = .token k s := by
  unfold SyntaxToken.green
  rw [hts]

theorem token_stop_eq {t : SyntaxToken} (hv : t.Valid) :
    t.text_range.stop = t.parent.startOffset +
      GreenElement.textLenList (t.parent.green.children.take (t.index + 1)) := by
  rcases hv.is_tok with ⟨k, s, hts⟩
  show t.offset + t.green.text_len = _
  rw [token_green_eq hts, hv.off_eq, textLenList_take_succ hts, Nat.add_assoc]

theorem token_next_sibling_or_token_valid {t : SyntaxToken} (hv : t.Valid)
    {el : SyntaxElement} (h : t.next_sibling_or_token = some el) :
    el.Valid ∧ el.parent = some t.parent ∧
      el.text_range.start = childStart t.parent el.index ∧ t.index < el.index := by
  unfold SyntaxToken.next_sibling_or_token at h
  cases hL : t.parent.green.children_from (t.index + 1) t.text_range.stop with
  | nil => rw [hL] at h; exact absurd h (by simp)
  | cons u rest =>
    rw [hL] at h
    simp at h
    subst h
    have hmem : u ∈ t.parent.green.children_from (t.index + 1) t.text_range.stop := by
      rw [hL]; exact List.mem_cons_self _ _
    obtain ⟨e, j, o⟩ := u
    rw [token_stop_eq hv] at hmem
    rcases mem_children_from hmem with ⟨he, ho, hs⟩
    rcases new_index_start e t.parent j o with ⟨hi, hst⟩
    refine ⟨?_, ?_, ?_, ?_⟩
    · rw [ho]
      exact valid_new hv.parent_valid he
    · cases e <;> rfl
    · rw [hst, hi, ho]
      rfl
    · rw [hi]
      omega

theorem token_prev_sibling_or_token_valid {t : SyntaxToken} (hv : t.Valid)
    {el : SyntaxElement} (h : t.prev_sibling_or_token = some el) :
    el.Valid ∧ el.parent = some t.parent ∧
      el.text_range.start = childStart t.parent el.index ∧ el.index < t.index := by
  unfold SyntaxToken.prev_sibling_or_token at h
  have hile : t.index ≤ t.parent.green.children.length := by
    rcases hv.is_tok with ⟨k, s, hts⟩
    exact Nat.le_of_lt (List.getElem?_eq_some.mp hts).1
  have hstart : t.text_range.start = t.parent.startOffset +
      GreenElement.textLenList (t.parent.green.children.take t.index) := hv.off_eq
  cases hL : t.parent.green.children_to t.index t.text_range.start with
  | nil => rw [hL] at h; exact absurd h (by simp)
  | cons u rest =>
    rw [hL] at h
    simp at h
    subst h
    have hmem : u ∈ t.parent.green.children_to t.index t.text_range.start := by
      rw [hL]; exact List.mem_cons_self _ _
    obtain ⟨e, j, o⟩ := u
    rw [hstart] at hmem
    rcases mem_children_to hile hmem with ⟨he, ho, hj⟩
    rcases new_index_start e t.parent j o with ⟨hi, hst⟩
    refine ⟨?_, ?_, ?_, ?_⟩
    · rw [ho]
      exact valid_new hv.parent_valid he
    · cases e <;> rfl
    · rw [hst, hi, ho]
      rfl
    · rw [hi]
      exact hj

/-- C2: every overlay produced by a navigation operation — child
iteration, first/last child, sibling steps from nodes or tokens — is
well-formed, and in particular its absolute start offset equals its
parent's start offset plus the summed text lengths of the green children
preceding its index (`childStart`); sibling steps start their offset
arithmetic from the cursor's own range boundary, as encoded in the
definitions of `next_sibling`/`prev_sibling` and proved correct here. -/
theorem claim_C2 :
    (∀ n : SyntaxNode, n.Valid → ∀ el ∈ n.children_with_tokens,
      el.Valid ∧ el.text_range.start = childStart n el.index) ∧
    (∀ n : SyntaxNode, n.Valid → ∀ c ∈ n.childrenNodes,
      c.Valid ∧ c.text_range.start = childStart n c.indexOf) ∧
    (∀ n : SyntaxNode, n.Valid → ∀ el, n.first_child_or_token = some el →
      el.Valid ∧ el.text_range.start = childStart n el.index) ∧
    (∀ n : SyntaxNode, n.Valid → ∀ c, n.first_child = some c →
      c.Valid ∧ c.text_range.start = childStart n c.indexOf) ∧
    (∀ n : SyntaxNode, n.Valid → ∀ el, n.last_child_or_token = some el →
      el.Valid ∧ el.text_range.start = childStart n el.index) ∧
    (∀ n : SyntaxNode, n.Valid → ∀ c, n.last_child = some c →
      c.Valid ∧ c.text_range.start = childStart n c.indexOf) ∧
    (∀ (p : SyntaxNode) (i off : Nat), (SyntaxNode.child p i off).Valid →
      ∀ m, (SyntaxNode.child p i off).next_sibling = some m →
      m.Valid ∧ m.parent = some p ∧ m.text_range.start = childStart p m.indexOf) ∧
    (∀ (p : SyntaxNode) (i off : Nat), (SyntaxNode.child p i off).Valid →
      ∀ el, (SyntaxNode.child p i off).next_sibling_or_token = some el →
      el.Valid ∧ el.parent = some p ∧ el.text_range.start = childStart p el.index) ∧
    (∀ (p : SyntaxNode) (i off : Nat), (SyntaxNode.child p i off).Valid →
      ∀ m, (SyntaxNode.child p i off).prev_sibling = some m →
      m.Valid ∧ m.parent = some p ∧ m.text_range.start = childStart p m.indexOf) ∧
    (∀ (p : SyntaxNode) (i off : Nat), (SyntaxNode.child p i off).Valid →
      ∀ el, (SyntaxNode.child p i off).prev_sibling_or_token = some el →
      el.Valid ∧ el.parent = some p ∧ el.text_range.start = childStart p el.index) ∧
    (∀ t : SyntaxToken, t.Valid → ∀ el, t.next_sibling_or_token = some el →
      el.Valid ∧ el.parent = some t.parent ∧
        el.text_range.start = childStart t.parent el.index) ∧
    (∀ t : SyntaxToken, t.Valid → ∀ el, t.prev_sibling_or_token = some el →
      el.Valid ∧ el.parent = some t.parent ∧
        el.text_range.start = childStart t.parent el.index) := by
  refine ⟨?_, ?_, ?_, ?_, ?_, ?_, ?_, ?_, ?_, ?_, ?_, ?_⟩
  · exact fun n hv => cwt_mem_valid hv
  · exact fun n hv => childrenNodes_mem_valid hv
  · exact fun n hv el h => first_child_or_token_valid hv h
  · exact fun n hv c h => first_child_valid hv h
  · exact fun n hv el h => last_child_or_token_valid hv h
  · exact fun n hv c h => last_child_valid hv h
  · intro p i off hv m h
    rcases next_sibling_valid hv h with ⟨h1, h2, h3, _⟩
    exact ⟨h1, h2, h3⟩
  · intro p i off hv el h
    rcases next_sibling_or_token_valid hv h with ⟨h1, h2, h3, _⟩
    exact ⟨h1, h2, h3⟩
  · intro p i off hv m h
    rcases prev_sibling_valid hv h with ⟨h1, h2, h3, _⟩
    exact ⟨h1, h2, h3⟩
  · intro p i off hv el h
    rcases prev_sibling_or_token_valid hv h with ⟨h1, h2, h3, _⟩
    exact ⟨h1, h2, h3⟩
  · intro t hv el h
    rcases token_next_sibling_or_token_valid hv h with ⟨h1, h2, h3, _⟩
    exact ⟨h1, h2, h3⟩
  · intro t hv el h
    rcases token_prev_sibling_or_token_valid hv h with ⟨h1, h2, h3, _⟩
    exact ⟨h1, h2, h3⟩

/-- Witness for C2: the S1 root's children land at offsets 0, 1 and 3,
matching the prefix-sum formula. -/
theorem claim_C2_witness :
    (∀ el ∈ s1Root.children_with_tokens,
      el.Valid ∧ el.text_range.start = childStart s1Root el.index) ∧
    (SyntaxElement.tokenEl ⟨s1Root, 1, 1⟩) ∈ s1Root.children_with_tokens ∧
    childStart s1Root 1 = 1 ∧ childStart s1Root 2 = 3 :=
  ⟨claim_C2.1 s1Root (.root _ rfl), by decide, by decide, by decide⟩

/-! ### Sibling round trip (claim C7) -/

theorem filter_eq_cons {α : Type} {p : α → Bool} :
    ∀ {l : List α} {a : α} {as : List α}, l.filter p = a :: as →
      ∃ l1 l2, l = l1 ++ a :: l2 ∧ (∀ x ∈ l1, p x = false) ∧ p a = true ∧
        l2.filter p = as
  | [], a, as, h => by simp at h
  | x :: xs, a, as, h => by
    by_cases hx : p x
    · rw [List.filter_cons_of_pos hx] at h
      rcases h with ⟨rfl, rfl⟩
      exact ⟨[], xs, rfl, by simp, hx, rfl⟩
    · rw [List.filter_cons_of_neg hx] at h
      rcases filter_eq_cons h with ⟨l1, l2, rfl, hl1, ha, hl2⟩
      exact ⟨x :: l1, l2, rfl, by
        intro y hy
        rcases List.mem_cons.mp hy with rfl | hy
        · exact Bool.of_not_eq_true hx
        · exact hl1 y hy, ha, hl2⟩

theorem childrenFromAux_map_fst : ∀ (l : List GreenElement) (i b : Nat),
    (childrenFromAux l i b).map Prod.fst = l
  | [], _, _ => rfl
  | e :: es, i, b => by
    simp [childrenFromAux, childrenFromAux_map_fst es]

open GreenElement in
theorem textLenList_take_add (l : List GreenElement) (a c : Nat) :
    textLenList (l.take (a + c)) =
      textLenList (l.take a) + textLenList ((l.drop a).take c) := by
  rw [List.take_add, textLenList_append]

/-- C7: a well-formed overlay node's `next_sibling` followed by
`prev_sibling` returns the original overlay (by overlay equality; in
fact the very same overlay value is rebuilt). -/
theorem claim_C7 : ∀ n : SyntaxNode, n.Valid → ∀ m, n.next_sibling = some m →
    ∃ n', m.prev_sibling = some n' ∧ SyntaxNode.eqv n' n = true := by
  intro n hv m h
  cases n with
  | root g => simp [SyntaxNode.next_sibling] at h
  | child p i off =>
    cases hv with
    | child _ _ _ e hp he hnode hoff =>
    have hv : (SyntaxNode.child p i off).Valid := .child p i off e hp he hnode hoff
    simp only [SyntaxNode.next_sibling] at h
    rw [child_stop_eq hv] at h
    cases hL : filterNodes
        (p.green.children_from (i + 1)
          (p.startOffset + GreenElement.textLenList (p.green.children.take (i + 1)))) with
    | nil => rw [hL] at h; exact absurd h (by simp)
    | cons t rest =>
      rw [hL] at h
      simp at h
      subst h
      unfold GreenElement.children_from at hL
      unfold filterNodes at hL
      rcases filter_eq_cons hL with ⟨l1, l2, hsplit, hl1, hpt, hl2⟩
      -- Identify the prefix `l1` with the walk over the skipped tokens.
      have hkle : l1.length ≤ (p.green.children.drop (i + 1)).length := by
        have hls := congrArg List.length hsplit
        rw [childrenFromAux_length] at hls
        simp only [List.length_append, List.length_cons] at hls
        omega
      have hCFsplit : childrenFromAux (p.green.children.drop (i + 1)) (i + 1)
            (p.startOffset + GreenElement.textLenList (p.green.children.take (i + 1))) =
          childrenFromAux ((p.green.children.drop (i + 1)).take l1.length) (i + 1)
            (p.startOffset + GreenElement.textLenList (p.green.children.take (i + 1))) ++
          childrenFromAux ((p.green.children.drop (i + 1)).drop l1.length)
            (i + 1 + ((p.green.children.drop (i + 1)).take l1.length).length)
            (p.startOffset + GreenElement.textLenList (p.green.children.take (i + 1)) +
              GreenElement.textLenList ((p.green.children.drop (i + 1)).take l1.length)) := by
        conv_lhs => rw [← List.take_append_drop l1.length (p.green.children.drop (i + 1))]
        rw [childrenFromAux_append]
      have hlpre_len : ((p.green.children.drop (i + 1)).take l1.length).length = l1.length := by
        rw [List.length_take]
        omega
      have hlen1 : l1.length = (childrenFromAux
          ((p.green.children.drop (i + 1)).take l1.length) (i + 1)
          (p.startOffset + GreenElement.textLenList (p.green.children.take (i + 1)))).length := by
        rw [childrenFromAux_length, hlpre_len]
      have hl1eq : l1 = childrenFromAux ((p.green.children.drop (i + 1)).take l1.length) (i + 1)
          (p.startOffset + GreenElement.textLenList (p.green.children.take (i + 1))) :=
        (List.append_inj (hsplit.symm.trans hCFsplit) hlen1).1
      have htail : t :: l2 = childrenFromAux ((p.green.children.drop (i + 1)).drop l1.length)
          (i + 1 + ((p.green.children.drop (i + 1)).take l1.length).length)
          (p.startOffset + GreenElement.textLenList (p.green.children.take (i + 1)) +
            GreenElement.textLenList ((p.green.children.drop (i + 1)).take l1.length)) :=
        (List.append_inj (hsplit.symm.trans hCFsplit) hlen1).2
      -- Skipped elements are all tokens.
      have hlpre_tok : ∀ y ∈ (p.green.children.drop (i + 1)).take l1.length,
          y.isNode = false := by
        intro y hy
        have hym : y ∈ (childrenFromAux ((p.green.children.drop (i + 1)).take l1.length) (i + 1)
            (p.startOffset + GreenElement.textLenList (p.green.children.take (i + 1)))).map
              Prod.fst := by
          rw [childrenFromAux_map_fst]
          exact hy
        rcases List.mem_map.mp hym with ⟨x, hx, hx1⟩
        rw [← hl1eq] at hx
        rw [← hx1]
        exact hl1 x hx
      -- Identify the found sibling.
      cases hdk : (p.green.children.drop (i + 1)).drop l1.length with
      | nil => rw [hdk] at htail; simp [childrenFromAux] at htail
      | cons y ys =>
        rw [hdk, hlpre_len, childrenFromAux] at htail
        injection htail with ht1 ht2
        subst ht1
        -- So the sibling sits at absolute index `i + 1 + l1.length`.
        have hdrop0 : ((p.green.children.drop (i + 1)).drop l1.length)[0]? = some y := by
          rw [hdk]
          simp
        simp only [List.getElem?_drop] at hdrop0
        have hcsj : p.green.children[i + 1 + l1.length]? = some y := by
          rw [← hdrop0]
          congr 1
        have hsumj : GreenElement.textLenList (p.green.children.take (i + 1 + l1.length)) =
            GreenElement.textLenList (p.green.children.take (i + 1)) +
              GreenElement.textLenList ((p.green.children.drop (i + 1)).take l1.length) := by
          rw [textLenList_take_add p.green.children (i + 1) l1.length]
        have hjlen : i + 1 + l1.length ≤ p.green.children.length :=
          Nat.le_of_lt (List.getElem?_eq_some.mp hcsj).1
        -- Now run `prev_sibling` on the sibling overlay.
        simp only [SyntaxNode.prev_sibling]
        have hmstart : (SyntaxNode.text_range (SyntaxNode.child p (i + 1 + l1.length)
            (p.startOffset + GreenElement.textLenList (p.green.children.take (i + 1)) +
              GreenElement.textLenList ((p.green.children.drop (i + 1)).take l1.length)))).start =
            p.startOffset + GreenElement.textLenList (p.green.children.take (i + 1 + l1.length)) := by
          rw [SyntaxNode.text_range_start]
          show p.startOffset + GreenElement.textLenList (p.green.children.take (i + 1)) +
              GreenElement.textLenList ((p.green.children.drop (i + 1)).take l1.length) = _
          rw [hsumj, Nat.add_assoc]
        rw [hmstart]
        -- `children_to` over the prefix, reversed.
        unfold GreenElement.children_to
        have hlen2 : (p.green.children.take (i + 1 + l1.length)).length = i + 1 + l1.length := by
          rw [List.length_take]
          omega
        have hrev := childrenToAux_reverse (p.green.children.take (i + 1 + l1.length)) p.startOffset
        rw [hlen2] at hrev
        rw [hrev]
        unfold filterNodes
        rw [List.filter_reverse]
        -- Split the prefix walk at `i + 1`.
        have hCF2 : childrenFromAux (p.green.children.take (i + 1 + l1.length)) 0 p.startOffset =
            childrenFromAux (p.green.children.take (i + 1)) 0 p.startOffset ++
            childrenFromAux ((p.green.children.drop (i + 1)).take l1.length)
              (0 + (p.green.children.take (i + 1)).length)
              (p.startOffset + GreenElement.textLenList (p.green.children.take (i + 1))) := by
          conv_lhs => rw [List.take_add]
          rw [childrenFromAux_append]
        rw [hCF2, List.filter_append]
        -- The skipped-token part of the walk contains no nodes.
        have hfilter_lpre : (childrenFromAux ((p.green.children.drop (i + 1)).take l1.length)
            (0 + (p.green.children.take (i + 1)).length)
            (p.startOffset + GreenElement.textLenList (p.green.children.take (i + 1)))).filter
              (fun t => t.1.isNode) = [] := by
          rw [List.filter_eq_nil]
          intro x hx
          have hx1 : x.1 ∈ (p.green.children.drop (i + 1)).take l1.length := by
            rw [← childrenFromAux_map_fst ((p.green.children.drop (i + 1)).take l1.length)
              (0 + (p.green.children.take (i + 1)).length)
              (p.startOffset + GreenElement.textLenList (p.green.children.take (i + 1)))]
            exact List.mem_map_of_mem _ hx
          simp [hlpre_tok x.1 hx1]
        rw [hfilter_lpre, List.append_nil]
        -- The `i+1` prefix walk ends with our original node.
        have hilen : (p.green.children.take i).length = i := by
          rw [List.length_take]
          have := (List.getElem?_eq_some.mp he).1
          omega
        have htake_succ : p.green.children.take (i + 1) = p.green.children.take i ++ [e] := by
          rw [List.take_succ, he]
          rfl
        have hCF3 : childrenFromAux (p.green.children.take (i + 1)) 0 p.startOffset =
            childrenFromAux (p.green.children.take i) 0 p.startOffset ++
            childrenFromAux [e] (0 + (p.green.children.take i).length)
              (p.startOffset + GreenElement.textLenList (p.green.children.take i)) := by
          conv_lhs => rw [htake_succ]
          rw [childrenFromAux_append]
        rw [hCF3, List.filter_append]
        simp only [childrenFromAux]
        rw [List.filter_cons_of_pos (by simpa using hnode)]
        simp only [List.filter_nil, List.reverse_append, List.reverse_cons,
          List.reverse_nil, List.nil_append, List.cons_append, hilen, Nat.zero_add]
        refine ⟨SyntaxNode.child p i
          (p.startOffset + GreenElement.textLenList (p.green.children.take i)), rfl, ?_⟩
        rw [hoff]
        simp [SyntaxNode.eqv]

/-- Witness for C7 on S1's node-free sibling structure: a tree with two
node children exercises the round trip. -/
theorem claim_C7_witness :
    (SyntaxNode.child (.root (.node 0 [.node 1 [], .node 2 []])) 0 0).Valid ∧
    (SyntaxNode.child (.root (.node 0 [.node 1 [], .node 2 []])) 0 0).next_sibling =
      some (.child (.root (.node 0 [.node 1 [], .node 2 []])) 1 0) ∧
    ∃ n', (SyntaxNode.child (.root (.node 0 [.node 1 [], .node 2 []])) 1 0).prev_sibling =
        some n' ∧
      SyntaxNode.eqv n' (.child (.root (.node 0 [.node 1 [], .node 2 []])) 0 0) = true := by
  have hroot : (SyntaxNode.root (.node 0 [.node 1 [], .node 2 []])).Valid := .root _ rfl
  have hv0 : (SyntaxNode.child (.root (.node 0 [.node 1 [], .node 2 []])) 0 0).Valid :=
    .child _ _ _ (.node 1 []) hroot (by decide) (by decide) (by decide)
  exact ⟨hv0, by decide, claim_C7 _ hv0 _ (by decide)⟩

/-! ### Covering node (claim C6) -/

theorem exists_node_of_isNode {g : GreenElement} (h : g.isNode = true) :
    ∃ k cs, g = .node k cs := by
  cases g with
  | node k cs => exact ⟨k, cs, rfl⟩
  | token k s => simp [GreenElement.isNode] at h

open GreenElement in
theorem depth_le_depthList : ∀ {e : GreenElement} {l : List GreenElement},
    e ∈ l → e.depth ≤ depthList l := by
  intro e l h
  induction l with
  | nil => cases h
  | cons c cs ih =>
    rcases List.mem_cons.mp h with rfl | h
    · exact le_max_of_le_left (Nat.le_refl _)
    · exact le_max_of_le_right (ih h)

open GreenElement in
theorem depth_pos : ∀ g : GreenElement, 0 < g.depth
  | .node _ _ => by simp [depth]
  | .token _ _ => by simp [depth]

theorem new_green {n : SyntaxNode} {k off : Nat} {e : GreenElement}
    (he : n.green.children[k]? = some e) :
    (SyntaxElement.new e n k off).green = e := by
  cases e with
  | node kk cs =>
    simp [SyntaxElement.new, SyntaxElement.green, SyntaxNode.green, he]
  | token kk s =>
    simp [SyntaxElement.new, SyntaxElement.green, SyntaxToken.green, he]

/-- Every child element's green is one of the parent's green children. -/
theorem cwt_green_mem {n : SyntaxNode} :
    ∀ el ∈ n.children_with_tokens, el.green ∈ n.green.children := by
  intro el hel
  rcases List.mem_map.mp hel with ⟨⟨e, j, o⟩, hmem, rfl⟩
  rcases mem_childrenFromAux_zero hmem with ⟨he, ho⟩
  rw [new_green he]
  exact List.getElem?_mem he

open GreenElement in
theorem cwt_depth_lt {n : SyntaxNode} (hv : n.Valid) :
    ∀ el ∈ n.children_with_tokens, el.green.depth < n.green.depth := by
  intro el hel
  have hmem := cwt_green_mem el hel
  rcases exists_node_of_isNode hv.green_isNode with ⟨k, cs, hg⟩
  rw [hg]
  rw [hg] at hmem
  show el.green.depth < depth (.node k cs)
  have : el.green.depth ≤ depthList cs := depth_le_depthList hmem
  simp only [depth]
  omega

theorem coveringGo_spec : ∀ (fuel : Nat) (el : SyntaxElement), el.Valid →
    el.green.depth ≤ fuel → ∀ r : TextRange, r.is_subrange el.text_range = true →
    ∃ res, coveringGo fuel el r = some res ∧ res.Valid ∧
      r.is_subrange res.text_range = true ∧
      ∀ m, res = .nodeEl m →
        m.children_with_tokens.find? (fun c => r.is_subrange c.text_range) = none := by
  intro fuel
  induction fuel with
  | zero =>
    intro el _ hd _ _
    have := depth_pos el.green
    omega
  | succ fuel ih =>
    intro el hv hd r hr
    cases el with
    | tokenEl t =>
      simp only [coveringGo]
      rw [if_pos hr]
      exact ⟨.tokenEl t, rfl, hv, hr, fun m hm => by cases hm⟩
    | nodeEl node =>
      have hd' : node.green.depth ≤ fuel + 1 := hd
      simp only [coveringGo]
      rw [if_pos hr]
      cases hf : node.children_with_tokens.find?
          (fun c => r.is_subrange c.text_range) with
      | none =>
        exact ⟨.nodeEl node, rfl, hv, hr, fun m hm => by cases hm; exact hf⟩
      | some c =>
        have hcm : c ∈ node.children_with_tokens := List.mem_of_find?_eq_some hf
        have hcr : r.is_subrange c.text_range = true := by
          have := List.find?_some hf
          simpa using this
        have hcv : c.Valid := (cwt_mem_valid hv c hcm).1
        have hcd : c.green.depth ≤ fuel := by
          have := cwt_depth_lt hv c hcm
          omega
        exact ih c hcv hcd r hcr

/-- C6: for a well-formed node `n` and a range contained in `n`'s range,
`covering_node` returns (without panicking) an element of the subtree
whose range contains the target range and that is deepest along the
descent: no child of a returned node contains the range, and descent
always enters the first child whose range contains it (the `find?` in the
definition).  On the S1 tree, `covering_node [1,3)` is token `B` and
`covering_node [0,4)` is the root. -/
theorem claim_C6 :
    (∀ n : SyntaxNode, n.Valid → ∀ r : TextRange,
      r.is_subrange n.text_range = true →
      ∃ res, n.covering_node r = some res ∧ res.Valid ∧
        r.is_subrange res.text_range = true ∧
        ∀ m, res = .nodeEl m →
          m.children_with_tokens.find? (fun c => r.is_subrange c.text_range) = none) ∧
    s1Root.covering_node ⟨1, 3⟩ = some (.tokenEl ⟨s1Root, 1, 1⟩) ∧
    s1Root.covering_node ⟨0, 4⟩ = some (.nodeEl s1Root) := by
  refine ⟨?_, by decide, by decide⟩
  intro n hv r hr
  exact coveringGo_spec (n.green.depth + 1) (.nodeEl n) hv
    (by show n.green.depth ≤ n.green.depth + 1; omega) r hr

/-- Witness for C6 at a concrete input. -/
theorem claim_C6_witness :
    ∃ res, s1Root.covering_node ⟨1, 3⟩ = some res ∧ res.Valid ∧
      TextRange.is_subrange ⟨1, 3⟩ res.text_range = true ∧
      ∀ m, res = .nodeEl m →
        m.children_with_tokens.find?
          (fun c => TextRange.is_subrange ⟨1, 3⟩ c.text_range) = none :=
  claim_C6.1 s1Root (.root _ rfl) ⟨1, 3⟩ (by decide)

/-! ### Token tiling of a green subtree (for claims C1 and C10)

`tokensAbs g b` lists the token leaves of `g` with their absolute
offsets, in document order, starting at base offset `b`; `neTokens`
keeps the non-empty ones.  The non-empty tokens tile the subtree's range
contiguously (`tiles`). -/

mutual
def tokensAbs : GreenElement → Nat → List (GreenElement × Nat)
  | .token k s, b => [(.token k s, b)]
  | .node _ cs, b => tokensAbsList cs b

def tokensAbsList : List GreenElement → Nat → List (GreenElement × Nat)
  | [], _ => []
  | c :: cs, b => tokensAbs c b ++ tokensAbsList cs (b + c.text_len)
end

def neTokens (g : GreenElement) (b : Nat) : List (GreenElement × Nat) :=
  (tokensAbs g b).filter (fun t => !(t.1.text_len == 0))

def neTokensList (l : List GreenElement) (b : Nat) : List (GreenElement × Nat) :=
  (tokensAbsList l b).filter (fun t => !(t.1.text_len == 0))

/-- `tiles L b e`: the entries of `L` are non-empty and partition the
interval `[b, e)` contiguously in order. -/
def tiles : List (GreenElement × Nat) → Nat → Nat → Prop
  | [], b, e => b = e
  | (t, c) :: rest, b, e => c = b ∧ t.text_len ≠ 0 ∧ tiles rest (b + t.text_len) e

theorem tiles_append : ∀ {L1 L2 : List (GreenElement × Nat)} {b m e : Nat},
    tiles L1 b m → tiles L2 m e → tiles (L1 ++ L2) b e := by
  intro L1
  induction L1 with
  | nil =>
    intro L2 b m e h1 h2
    cases h1
    simpa using h2
  | cons hd tl ih =>
    intro L2 b m e h1 h2
    obtain ⟨t, c⟩ := hd
    rcases h1 with ⟨hc, hne, htl⟩
    exact ⟨hc, hne, ih htl h2⟩

open GreenElement in
mutual
theorem neTokens_tiles : ∀ (g : GreenElement) (b : Nat),
    tiles (neTokens g b) b (b + g.text_len)
  | .token k s, b => by
    by_cases h : s.length = 0
    · simp [neTokens, tokensAbs, List.filter, h, tiles, text_len]
    · simp only [neTokens, tokensAbs, text_len]
      rw [List.filter_cons_of_pos (by simp [text_len, h])]
      simp [tiles, text_len, h]
  | .node k cs, b => by
    simp only [neTokens, tokensAbs, text_len]
    exact neTokensList_tiles cs b

theorem neTokensList_tiles : ∀ (l : List GreenElement) (b : Nat),
    tiles (neTokensList l b) b (b + textLenList l)
  | [], b => by simp [neTokensList, tokensAbsList, tiles, textLenList]
  | c :: cs, b => by
    simp only [neTokensList, tokensAbsList, textLenList, List.filter_append]
    have h1 : tiles ((tokensAbs c b).filter (fun t => !(t.1.text_len == 0)))
        b (b + c.text_len) := neTokens_tiles c b
    have h2 : tiles ((tokensAbsList cs (b + c.text_len)).filter
        (fun t => !(t.1.text_len == 0)))
        (b + c.text_len) (b + c.text_len + textLenList cs) := neTokensList_tiles cs (b + c.text_len)
    have := tiles_append h1 h2
    rw [Nat.add_assoc] at this
    exact this
end

theorem tiles_le : ∀ {L : List (GreenElement × Nat)} {b e : Nat},
    tiles L b e → b ≤ e := by
  intro L
  induction L with
  | nil => intro b e h; cases h; exact Nat.le_refl _
  | cons hd tl ih =>
    intro b e h
    obtain ⟨t, c⟩ := hd
    rcases h with ⟨hc, hne, htl⟩
    have := ih htl
    omega

theorem tiles_bounds : ∀ {L : List (GreenElement × Nat)} {b e : Nat},
    tiles L b e → ∀ {j : Nat} {t : GreenElement} {c : Nat},
    L[j]? = some (t, c) → b ≤ c ∧ c + t.text_len ≤ e ∧ t.text_len ≠ 0 := by
  intro L
  induction L with
  | nil => intro b e _ j t c hj; simp at hj
  | cons hd tl ih =>
    intro b e h j t c hj
    obtain ⟨t0, c0⟩ := hd
    rcases h with ⟨hc0, hne0, htl⟩
    cases j with
    | zero =>
      simp at hj
      rcases hj with ⟨rfl, rfl⟩
      have hend := tiles_le htl
      exact ⟨by omega, by omega, hne0⟩
    | succ j =>
      simp only [List.getElem?_cons_succ] at hj
      have := ih htl hj
      have hb : b ≤ b + t0.text_len := Nat.le_add_right _ _
      exact ⟨by omega, this.2.1, this.2.2⟩

/-- Entries of a tiling are separated: an earlier entry ends no later
than a later entry starts. -/
theorem tiles_sep : ∀ {L : List (GreenElement × Nat)} {b e : Nat},
    tiles L b e → ∀ {j j' : Nat} {t t' : GreenElement} {c c' : Nat},
    j < j' → L[j]? = some (t, c) → L[j']? = some (t', c') →
    c + t.text_len ≤ c' := by
  intro L
  induction L with
  | nil => intro b e _ j j' t t' c c' _ hj _; simp at hj
  | cons hd tl ih =>
    intro b e h j j' t t' c c' hlt hj hj'
    obtain ⟨t0, c0⟩ := hd
    rcases h with ⟨hc0, hne0, htl⟩
    cases j with
    | zero =>
      simp at hj
      rcases hj with ⟨rfl, rfl⟩
      cases j' with
      | zero => omega
      | succ j' =>
        simp only [List.getElem?_cons_succ] at hj'
        have := tiles_bounds htl hj'
        omega
    | succ j =>
      cases j' with
      | zero => omega
      | succ j' =>
        simp only [List.getElem?_cons_succ] at hj hj'
        exact ih htl (by omega) hj hj'

theorem tiles_getLast : ∀ {init : List (GreenElement × Nat)}
    {t : GreenElement} {c : Nat} {b e : Nat},
    tiles (init ++ [(t, c)]) b e → c + t.text_len = e := by
  intro init
  induction init with
  | nil =>
    intro t c b e h
    rcases h with ⟨hc, hne, htl⟩
    cases htl
    omega
  | cons hd tl ih =>
    intro t c b e h
    obtain ⟨t0, c0⟩ := hd
    rcases h with ⟨hc0, hne0, htl⟩
    exact ih htl

theorem tiles_nil_of_empty : ∀ {L : List (GreenElement × Nat)} {b : Nat},
    tiles L b b → L = [] := by
  intro L b h
  cases L with
  | nil => rfl
  | cons hd tl =>
    obtain ⟨t, c⟩ := hd
    rcases h with ⟨hc, hne, htl⟩
    have := tiles_le htl
    omega

open GreenElement in
theorem neTokensList_of_zero {l : List GreenElement} {b : Nat}
    (h : textLenList l = 0) : neTokensList l b = [] := by
  have := neTokensList_tiles l b
  rw [h] at this
  exact tiles_nil_of_empty this

open GreenElement in
theorem neTokens_of_zero {g : GreenElement} {b : Nat}
    (h : g.text_len = 0) : neTokens g b = [] := by
  have := neTokens_tiles g b
  rw [h] at this
  exact tiles_nil_of_empty this

open GreenElement in
theorem tokensAbsList_append : ∀ (l1 l2 : List GreenElement) (b : Nat),
    tokensAbsList (l1 ++ l2) b =
      tokensAbsList l1 b ++ tokensAbsList l2 (b + textLenList l1)
  | [], l2, b => by simp [tokensAbsList, textLenList]
  | c :: cs, l2, b => by
    show tokensAbs c b ++ tokensAbsList (cs ++ l2) (b + c.text_len) =
      (tokensAbs c b ++ tokensAbsList cs (b + c.text_len)) ++
        tokensAbsList l2 (b + textLenList (c :: cs))
    rw [tokensAbsList_append cs l2 (b + c.text_len), List.append_assoc]
    have hoo : b + c.text_len + textLenList cs = b + textLenList (c :: cs) := by
      show _ = b + (c.text_len + textLenList cs)
      omega
    rw [hoo]

open GreenElement in
/-- Decomposition of the non-empty token list of a node around the
child at index `k`. -/
theorem neTokensList_split {cs : List GreenElement} {k : Nat}
    {e : GreenElement} (he : cs[k]? = some e) (b : Nat) :
    neTokensList cs b =
      neTokensList (cs.take k) b ++
      neTokens e (b + textLenList (cs.take k)) ++
      neTokensList (cs.drop (k + 1)) (b + textLenList (cs.take (k + 1))) := by
  have hk : k < cs.length := (List.getElem?_eq_some.mp he).1
  have hsplit : cs = cs.take k ++ e :: cs.drop (k + 1) := by
    conv_lhs => rw [← List.take_append_drop k cs]
    congr 1
    rw [List.drop_eq_getElem_cons hk]
    congr 1
    have := (List.getElem?_eq_some.mp he).2
    rw [← this]
  unfold neTokensList neTokens
  conv_lhs => rw [hsplit]
  rw [tokensAbsList_append]
  simp only [tokensAbsList]
  simp only [List.filter_append]
  have hoo : b + textLenList (cs.take (k + 1)) =
      b + textLenList (cs.take k) + e.text_len := by
    rw [textLenList_take_succ he]
    omega
  rw [hoo, List.append_assoc]

/-! ### Candidate children of `token_at_offset` (claims C1, C10) -/

/-- The non-empty-and-contains-offset filter of `token_at_offset`, at
the level of `(element, index, offset)` triples. -/
def candP (off : Nat) (t : GreenElement × Nat × Nat) : Bool :=
  !(t.1.text_len == 0) &&
    (decide (t.2.2 ≤ off) && decide (off ≤ t.2.2 + t.1.text_len))

theorem offs_lb : ∀ (l : List GreenElement) (i b : Nat),
    ∀ x ∈ childrenFromAux l i b, b ≤ x.2.2
  | [], _, _ => by simp [childrenFromAux]
  | e :: es, i, b => by
    intro x hx
    rcases List.mem_cons.mp hx with rfl | hx
    · exact Nat.le_refl _
    · have := offs_lb es (i + 1) (b + e.text_len) x hx
      omega

theorem filter_cand_of_lt {l : List GreenElement} {i b off : Nat}
    (h : off < b) : (childrenFromAux l i b).filter (candP off) = [] := by
  rw [List.filter_eq_nil]
  intro x hx
  have := offs_lb l i b x hx
  simp [candP]
  intro _ h2
  omega

open GreenElement in
theorem text_len_le_sum : ∀ {e : GreenElement} {l : List GreenElement},
    e ∈ l → e.text_len ≤ textLenList l := by
  intro e l h
  induction l with
  | nil => cases h
  | cons c cs ih =>
    rcases List.mem_cons.mp h with rfl | h
    · simp [textLenList]
    · have := ih h
      simp only [textLenList]
      omega

open GreenElement in
theorem filter_cand_of_zero {l : List GreenElement} {i b off : Nat}
    (h : textLenList l = 0) :
    (childrenFromAux l i b).filter (candP off) = [] := by
  rw [List.filter_eq_nil]
  intro x hx
  have hx1 : x.1 ∈ l := by
    rw [← childrenFromAux_map_fst l i b]
    exact List.mem_map_of_mem _ hx
  have := text_len_le_sum hx1
  simp [candP]
  intro hne
  omega

open GreenElement in
/-- Characterization of the candidate list of `token_at_offset` at the
triple level: under the offset precondition on a non-empty child list,
the filter retains exactly one child (with the offset strictly inside,
or at the shared start, or at the shared end of the whole list) or
exactly two adjacent children meeting at the offset. -/
theorem cand_spec : ∀ (l : List GreenElement) (i b off : Nat),
    b ≤ off → off ≤ b + textLenList l → textLenList l ≠ 0 →
    (∃ k e c, (childrenFromAux l i b).filter (candP off) = [(e, i + k, c)] ∧
      l[k]? = some e ∧ c = b + textLenList (l.take k) ∧
      e.text_len ≠ 0 ∧ c ≤ off ∧ off ≤ c + e.text_len ∧
      ((c < off ∧ off < c + e.text_len) ∨
       (off = c ∧ off = b) ∨
       (off = c + e.text_len ∧ off = b + textLenList l)))
    ∨ (∃ k1 e1 c1 k2 e2 c2,
      (childrenFromAux l i b).filter (candP off) =
        [(e1, i + k1, c1), (e2, i + k2, c2)] ∧
      l[k1]? = some e1 ∧ l[k2]? = some e2 ∧
      c1 = b + textLenList (l.take k1) ∧
      c2 = b + textLenList (l.take k2) ∧
      e1.text_len ≠ 0 ∧ e2.text_len ≠ 0 ∧ k1 < k2 ∧
      off = c1 + e1.text_len ∧ off = c2)
  | [], i, b, off => by
    intro _ _ h3
    simp [textLenList] at h3
  | e :: es, i, b, off => by
    intro hb hub hsum
    simp only [childrenFromAux]
    by_cases hlen : e.text_len = 0
    · -- empty head child: skipped by the filter
      rw [List.filter_cons_of_neg (by simp [candP, hlen])]
      have hsum' : textLenList (e :: es) = textLenList es := by
        simp [textLenList, hlen]
      have hbase : b + e.text_len = b := by omega
      rw [hbase]
      have hub' : off ≤ b + textLenList es := by
        rw [hsum'] at hub
        exact hub
      have hsum2 : textLenList es ≠ 0 := by
        rw [hsum'] at hsum
        exact hsum
      rcases cand_spec es (i + 1) b off hb hub' hsum2 with
        ⟨k, e', c, hfil, hke, hc, hne, hcl, hcu, href⟩ |
        ⟨k1, e1, c1, k2, e2, c2, hfil, hk1, hk2, hc1, hc2, hne1, hne2, hklt, ho1, ho2⟩
      · left
        refine ⟨k + 1, e', c, ?_, by simpa using hke, ?_, hne, hcl, hcu, ?_⟩
        · rw [hfil]
          have : i + 1 + k = i + (k + 1) := by omega
          rw [this]
        · rw [hc]
          simp [textLenList, hlen]
        · rcases href with h | ⟨h1, h2⟩ | ⟨h1, h2⟩
          · exact Or.inl h
          · exact Or.inr (Or.inl ⟨h1, h2⟩)
          · refine Or.inr (Or.inr ⟨h1, ?_⟩)
            rw [hsum']
            exact h2
      · right
        refine ⟨k1 + 1, e1, c1, k2 + 1, e2, c2, ?_, by simpa using hk1,
          by simpa using hk2, ?_, ?_, hne1, hne2, by omega, ho1, ho2⟩
        · rw [hfil]
          have h1 : i + 1 + k1 = i + (k1 + 1) := by omega
          have h2 : i + 1 + k2 = i + (k2 + 1) := by omega
          rw [h1, h2]
        · rw [hc1]
          simp [textLenList, hlen]
        · rw [hc2]
          simp [textLenList, hlen]
    · -- non-empty head child
      rcases Nat.lt_trichotomy off (b + e.text_len) with hofflt | hoffeq | hoffgt
      · -- offset strictly inside the head child: it is the only candidate
        rw [List.filter_cons_of_pos (by
          simp [candP, hlen]
          exact ⟨hb, by omega⟩)]
        rw [filter_cand_of_lt (by omega)]
        left
        refine ⟨0, e, b, by simp, by simp, by simp [textLenList], hlen, hb,
          by omega, ?_⟩
        by_cases hob : off = b
        · exact Or.inr (Or.inl ⟨hob, hob⟩)
        · exact Or.inl ⟨by omega, by omega⟩
      · -- offset at the head child's right edge
        rw [List.filter_cons_of_pos (by
          simp [candP, hlen]
          exact ⟨hb, by omega⟩)]
        by_cases hsum_es : textLenList es = 0
        · -- nothing follows: single candidate at the very end
          rw [filter_cand_of_zero hsum_es]
          left
          refine ⟨0, e, b, by simp, by simp, by simp [textLenList], hlen, hb,
            by omega, ?_⟩
          refine Or.inr (Or.inr ⟨by omega, ?_⟩)
          simp [textLenList]
          omega
        · -- a second candidate starts exactly at the offset
          rcases cand_spec es (i + 1) (b + e.text_len) off (by omega)
              (by simp only [textLenList] at hub; omega) hsum_es with
            ⟨k, e', c, hfil, hke, hc, hne, hcl, hcu, href⟩ |
            ⟨k1, e1, c1, k2, e2, c2, hfil, hk1, hk2, hc1, hc2, hne1, hne2, hklt, ho1, ho2⟩
          · -- the tail yields a single candidate, necessarily at its start
            have hcge : b + e.text_len ≤ c := by
              rw [hc]
              omega
            rcases href with ⟨h1, h2⟩ | ⟨h1, h2⟩ | ⟨h1, h2⟩
            · omega
            · -- off = c: two candidates in total
              right
              refine ⟨0, e, b, k + 1, e', c, ?_, by simp, by simpa using hke,
                by simp [textLenList], ?_, hlen, hne, by omega, by omega, h1⟩
              · rw [hfil]
                have hh : i + 1 + k = i + (k + 1) := by omega
                rw [hh]
                simp
              · rw [hc]
                simp [textLenList]
                omega
            · omega
          · -- tail pair is impossible when the offset is the tail's base
            exfalso
            have : b + e.text_len ≤ c1 := by
              rw [hc1]
              omega
            omega
      · -- offset beyond the head child: recurse into the tail
        rw [List.filter_cons_of_neg (by
          simp [candP, hlen]
          intro
          omega)]
        have hsum_es : textLenList es ≠ 0 := by
          simp only [textLenList] at hub
          intro h0
          omega
        rcases cand_spec es (i + 1) (b + e.text_len) off (by omega)
            (by simp only [textLenList] at hub; omega) hsum_es with
          ⟨k, e', c, hfil, hke, hc, hne, hcl, hcu, href⟩ |
          ⟨k1, e1, c1, k2, e2, c2, hfil, hk1, hk2, hc1, hc2, hne1, hne2, hklt, ho1, ho2⟩
        · left
          refine ⟨k + 1, e', c, ?_, by simpa using hke, ?_, hne, hcl, hcu, ?_⟩
          · rw [hfil]
            have hh : i + 1 + k = i + (k + 1) := by omega
            rw [hh]
          · rw [hc]
            simp [textLenList]
            omega
          · rcases href with h | ⟨h1, h2⟩ | ⟨h1, h2⟩
            · exact Or.inl h
            · omega
            · refine Or.inr (Or.inr ⟨h1, ?_⟩)
              simp [textLenList]
              omega
        · right
          refine ⟨k1 + 1, e1, c1, k2 + 1, e2, c2, ?_, by simpa using hk1,
            by simpa using hk2, ?_, ?_, hne1, hne2, by omega, ho1, ho2⟩
          · rw [hfil]
            have h1 : i + 1 + k1 = i + (k1 + 1) := by omega
            have h2 : i + 1 + k2 = i + (k2 + 1) := by omega
            rw [h1, h2]
          · rw [hc1]
            simp [textLenList]
            omega
          · rw [hc2]
            simp [textLenList]
            omega

/-! ### Result characterization for `token_at_offset` -/

/-- What `token_at_offset` returns on a non-empty well-formed subtree
with green `g` based at offset `b`: a single token strictly containing
the offset, a between-pair at a shared boundary of adjacent non-empty
tokens, or a single token when the offset sits on the subtree's own
start or end edge. -/
def TaoSpec (g : GreenElement) (b off : Nat) (r : TokenAtOffset SyntaxToken) : Prop :=
  (∃ (j : Nat) (t : GreenElement) (c : Nat) (tk : SyntaxToken),
    (neTokens g b)[j]? = some (t, c) ∧ c < off ∧ off < c + t.text_len ∧
    r = .single tk ∧ tk.green = t ∧ tk.offset = c)
  ∨ (∃ (j : Nat) (tl : GreenElement) (cl : Nat) (tr : GreenElement) (cr : Nat)
      (tkl tkr : SyntaxToken), (neTokens g b)[j]? = some (tl, cl) ∧
      (neTokens g b)[j + 1]? = some (tr, cr) ∧
      off = cl + tl.text_len ∧ off = cr ∧
      r = .between tkl tkr ∧ tkl.green = tl ∧ tkl.offset = cl ∧
      tkr.green = tr ∧ tkr.offset = cr)
  ∨ (off = b ∧ ∃ (t : GreenElement) (c : Nat) (tk : SyntaxToken)
      (rest : List (GreenElement × Nat)), neTokens g b = (t, c) :: rest ∧ c = b ∧
      r = .single tk ∧ tk.green = t ∧ tk.offset = c)
  ∨ (off = b + g.text_len ∧ ∃ (t : GreenElement) (c : Nat) (tk : SyntaxToken)
      (init : List (GreenElement × Nat)), neTokens g b = init ++ [(t, c)] ∧
      off = c + t.text_len ∧ r = .single tk ∧ tk.green = t ∧ tk.offset = c)

theorem neTokens_node (kk : Nat) (cs : List GreenElement) (b : Nat) :
    neTokens (.node kk cs) b = neTokensList cs b := rfl

open GreenElement in
theorem neTokens_token {kk : Nat} {s : String} (b : Nat)
    (h : (GreenElement.token kk s).text_len ≠ 0) :
    neTokens (.token kk s) b = [(.token kk s, b)] := by
  unfold neTokens tokensAbs
  rw [List.filter_cons_of_pos (by simpa using h)]
  rfl

theorem child_green {n : SyntaxNode} {k c : Nat} {e : GreenElement}
    (he : n.green.children[k]? = some e) :
    (SyntaxNode.child n k c).green = e := by
  simp [SyntaxNode.green, he]

open GreenElement in
theorem depth_child_lt {kk : Nat} {cs : List GreenElement} {k : Nat}
    {e : GreenElement} (he : cs[k]? = some e) :
    e.depth < (GreenElement.node kk cs).depth := by
  have hmem : e ∈ cs := List.getElem?_mem he
  have := depth_le_depthList hmem
  simp only [depth]
  omega

theorem getElem?_append_mid {α : Type} (l1 l2 : List α) (x : α) :
    (l1 ++ x :: l2)[l1.length]? = some x := by
  rw [List.getElem?_append_right (Nat.le_refl _)]
  simp

theorem getElem?_append_mid2 {α : Type} (l1 l2 : List α) (x y : α) :
    (l1 ++ x :: y :: l2)[l1.length + 1]? = some y := by
  rw [List.getElem?_append_right (by omega)]
  have : l1.length + 1 - l1.length = 1 := by omega
  rw [this]
  simp

open GreenElement in
theorem textLenList_split (cs : List GreenElement) (k : Nat) :
    textLenList cs = textLenList (cs.take k) + textLenList (cs.drop k) := by
  conv_lhs => rw [← List.take_append_drop k cs]
  rw [textLenList_append]

theorem getElem?_append3 {α : Type} {A E B : List α} {j : Nat}
    (h : j < E.length) : (A ++ E ++ B)[A.length + j]? = E[j]? := by
  rw [List.append_assoc]
  rw [List.getElem?_append_right (Nat.le_add_right _ _)]
  have harith : A.length + j - A.length = j := by omega
  rw [harith]
  rw [List.getElem?_append, if_pos h]

open GreenElement in
/-- Lift the `token_at_offset` characterization from a child subtree to
its parent node. -/
theorem taoSpec_lift {kk : Nat} {cs : List GreenElement} {k : Nat}
    {e : GreenElement} {b c off : Nat} {r : TokenAtOffset SyntaxToken}
    (he : cs[k]? = some e)
    (hc : c = b + textLenList (cs.take k))
    (hne : e.text_len ≠ 0)
    (href : (c < off ∧ off < c + e.text_len) ∨ (off = c ∧ off = b) ∨
      (off = c + e.text_len ∧ off = b + textLenList cs))
    (hspec : TaoSpec e c off r) :
    TaoSpec (.node kk cs) b off r := by
  have hsplit := neTokensList_split he b
  rw [← hc] at hsplit
  unfold TaoSpec at hspec ⊢
  rw [neTokens_node, hsplit]
  rcases hspec with ⟨j, t, c', tk, hj, h1, h2, hr, hg, ho⟩ |
    ⟨j, tl, cl, tr, cr, tkl, tkr, hj, hj1, h1, h2, hr, hgl, hol, hgr, hor⟩ |
    ⟨hoffc, t, c', tk, rest, hE, hcb, hr, hg, ho⟩ |
    ⟨hoffe, t, c', tk, init, hE, hoc, hr, hg, ho⟩
  · -- strictly inside a token of the child subtree
    left
    have hjlt : j < (neTokens e c).length := (List.getElem?_eq_some.mp hj).1
    refine ⟨(neTokensList (cs.take k) b).length + j, t, c', tk, ?_, h1, h2, hr, hg, ho⟩
    rw [getElem?_append3 hjlt]
    exact hj
  · -- between two adjacent tokens of the child subtree
    right; left
    have hjlt : j + 1 < (neTokens e c).length := (List.getElem?_eq_some.mp hj1).1
    refine ⟨(neTokensList (cs.take k) b).length + j, tl, cl, tr, cr, tkl, tkr,
      ?_, ?_, h1, h2, hr, hgl, hol, hgr, hor⟩
    · rw [getElem?_append3 (by omega)]
      exact hj
    · have harith : (neTokensList (cs.take k) b).length + j + 1 =
          (neTokensList (cs.take k) b).length + (j + 1) := by omega
      rw [harith, getElem?_append3 hjlt]
      exact hj1
  · -- offset at the child's start edge
    have hob : off = b := by
      rcases href with ⟨h1, _⟩ | ⟨_, h2⟩ | ⟨h1, _⟩
      · omega
      · exact h2
      · omega
    have hsum0 : textLenList (cs.take k) = 0 := by omega
    have hA : neTokensList (cs.take k) b = [] := neTokensList_of_zero hsum0
    right; right; left
    refine ⟨hob, t, c', tk, rest ++ neTokensList (cs.drop (k + 1))
      (b + textLenList (cs.take (k + 1))), ?_, by omega, hr, hg, ho⟩
    rw [hA, hE]
    simp
  · -- offset at the child's end edge
    have hototal : off = b + textLenList cs := by
      rcases href with ⟨_, h2⟩ | ⟨h2, _⟩ | ⟨_, h2⟩
      · omega
      · omega
      · exact h2
    have hsumsucc := textLenList_take_succ he
    have hsplit2 := textLenList_split cs (k + 1)
    have hB0 : textLenList (cs.drop (k + 1)) = 0 := by omega
    have hB : neTokensList (cs.drop (k + 1)) (b + textLenList (cs.take (k + 1))) = [] :=
      neTokensList_of_zero hB0
    right; right; right
    refine ⟨?_, t, c', tk, neTokensList (cs.take k) b ++ init, ?_, hoc, hr, hg, ho⟩
    · show off = b + textLenList cs
      exact hototal
    · rw [hB, hE]
      simp

theorem new_text_range {n : SyntaxNode} {k off : Nat} {e : GreenElement}
    (he : n.green.children[k]? = some e) :
    (SyntaxElement.new e n k off).text_range = TextRange.offset_len off e.text_len := by
  cases e with
  | node kk cs =>
    show (SyntaxNode.child n k off).text_range = _
    unfold SyntaxNode.text_range
    rw [child_green he]
    rfl
  | token kk s =>
    show (SyntaxToken.mk n k off).text_range = _
    unfold SyntaxToken.text_range
    rw [token_green_eq he]

/-- The candidate filter of `token_at_offset`, commuted through the
element construction: filtering the overlay children equals mapping the
construction over the triple-level filter `candP`. -/
theorem cand_comm (n : SyntaxNode) (off : Nat) :
    (n.children_with_tokens).filter (fun child =>
      !child.text_range.isEmpty &&
        (decide (child.text_range.start ≤ off) &&
          decide (off ≤ child.text_range.stop))) =
    ((childrenFromAux n.green.children 0 n.text_range.start).filter
      (candP off)).map (fun t => SyntaxElement.new t.1 n t.2.1 t.2.2) := by
  unfold SyntaxNode.children_with_tokens
  rw [List.filter_map]
  congr 1
  apply List.filter_congr
  intro t hmem
  obtain ⟨e, k, o⟩ := t
  rcases mem_childrenFromAux_zero hmem with ⟨he, ho⟩
  simp only [Function.comp]
  rw [new_text_range he]
  show (!(TextRange.offset_len o e.text_len).isEmpty &&
    (decide ((TextRange.offset_len o e.text_len).start ≤ off) &&
      decide (off ≤ (TextRange.offset_len o e.text_len).stop))) = candP off (e, k, o)
  unfold TextRange.offset_len TextRange.isEmpty candP
  simp only []
  have hemp : (o == o + e.text_len) = (e.text_len == 0) := by
    by_cases h : e.text_len = 0
    · simp [h]
    · simp [h]
  rw [hemp]

/-- Induction payload for `token_at_offset` at a given fuel. -/
def MasterP (fuel : Nat) : Prop :=
  ∀ (n : SyntaxNode) (off : Nat), n.Valid → n.green.depth ≤ fuel →
    n.green.text_len ≠ 0 → n.startOffset ≤ off →
    off ≤ n.startOffset + n.green.text_len →
    ∃ r, tokenAtOffsetNodeGo fuel n off = some r ∧
      TaoSpec n.green n.startOffset off r

open GreenElement in
/-- Element-level evaluation of the `token_at_offset` recursion on a
candidate child, assuming the node-level induction hypothesis. -/
theorem elGo_spec {fuel : Nat} (hM : MasterP fuel) {n : SyntaxNode}
    (hv : n.Valid) {k c off : Nat} {e : GreenElement}
    (he : n.green.children[k]? = some e)
    (hc : c = n.startOffset + textLenList (n.green.children.take k))
    (hd : e.depth ≤ fuel) (hne : e.text_len ≠ 0)
    (hcl : c ≤ off) (hcu : off ≤ c + e.text_len) :
    ∃ r, tokenAtOffsetElWith (fun m => tokenAtOffsetNodeGo fuel m off)
        (SyntaxElement.new e n k c) off = some r ∧ TaoSpec e c off r := by
  unfold tokenAtOffsetElWith
  rw [new_text_range he]
  rw [if_pos ⟨hcl, hcu⟩]
  cases e with
  | token kk s =>
    refine ⟨.single ⟨n, k, c⟩, rfl, ?_⟩
    have hgr : SyntaxToken.green ⟨n, k, c⟩ = .token kk s := token_green_eq he
    have hNE : neTokens (.token kk s) c = [(.token kk s, c)] := neTokens_token c hne
    unfold TaoSpec
    rcases Nat.lt_trichotomy off c with h | h | h
    · omega
    · -- offset at the token's start
      right; right; left
      exact ⟨h, .token kk s, c, ⟨n, k, c⟩, [], hNE, rfl, rfl, hgr, rfl⟩
    · rcases Nat.lt_trichotomy off (c + (GreenElement.token kk s).text_len) with
        h2 | h2 | h2
      · -- strictly inside the token
        left
        refine ⟨0, .token kk s, c, ⟨n, k, c⟩, ?_, h, h2, rfl, hgr, rfl⟩
        rw [hNE]
        simp
      · -- offset at the token's end
        right; right; right
        exact ⟨h2, .token kk s, c, ⟨n, k, c⟩, [], by rw [hNE]; rfl, h2,
          rfl, hgr, rfl⟩
      · omega
  | node kk cs =>
    have hvc : (SyntaxNode.child n k c).Valid := .child n k c _ hv he rfl hc
    have hgr : (SyntaxNode.child n k c).green = .node kk cs := child_green he
    have hr := hM (SyntaxNode.child n k c) off hvc (by rw [hgr]; exact hd)
      (by rw [hgr]; exact hne) hcl (by rw [hgr]; exact hcu)
    rcases hr with ⟨r, hr, hspec⟩
    rw [hgr] at hspec
    exact ⟨r, hr, hspec⟩

open GreenElement in
/-- When the offset sits on the subtree's right edge, the
characterization collapses to a single token: the last non-empty token. -/
theorem taoSpec_end_extract {e : GreenElement} {c off : Nat}
    {r : TokenAtOffset SyntaxToken} (hoff : off = c + e.text_len)
    (hne : e.text_len ≠ 0) (hspec : TaoSpec e c off r) :
    ∃ (t : GreenElement) (c' : Nat) (tk : SyntaxToken)
      (init : List (GreenElement × Nat)),
      neTokens e c = init ++ [(t, c')] ∧ off = c' + t.text_len ∧
      r = .single tk ∧ tk.green = t ∧ tk.offset = c' := by
  have htiles := neTokens_tiles e c
  rcases hspec with ⟨j, t, c', tk, hj, h1, h2, hr, hg, ho⟩ |
    ⟨j, tl, cl, tr, cr, tkl, tkr, hj, hj1, h1, h2, hr, hgl, hol, hgr, hor⟩ |
    ⟨hoffc, _⟩ | ⟨_, t, c', tk, init, hE, hoc, hr, hg, ho⟩
  · have := tiles_bounds htiles hj
    omega
  · have := tiles_bounds htiles hj1
    omega
  · omega
  · exact ⟨t, c', tk, init, hE, hoc, hr, hg, ho⟩

open GreenElement in
/-- When the offset sits on the subtree's left edge, the
characterization collapses to a single token: the first non-empty token. -/
theorem taoSpec_start_extract {e : GreenElement} {c off : Nat}
    {r : TokenAtOffset SyntaxToken} (hoff : off = c)
    (hne : e.text_len ≠ 0) (hspec : TaoSpec e c off r) :
    ∃ (t : GreenElement) (tk : SyntaxToken) (rest : List (GreenElement × Nat)),
      neTokens e c = (t, c) :: rest ∧
      r = .single tk ∧ tk.green = t ∧ tk.offset = c := by
  have htiles := neTokens_tiles e c
  rcases hspec with ⟨j, t, c', tk, hj, h1, h2, hr, hg, ho⟩ |
    ⟨j, tl, cl, tr, cr, tkl, tkr, hj, hj1, h1, h2, hr, hgl, hol, hgr, hor⟩ |
    ⟨hoffc, t, c', tk, rest, hE, hcb, hr, hg, ho⟩ |
    ⟨hoffe, t, c', tk, init, hE, hoc, hr, hg, ho⟩
  · have := tiles_bounds htiles hj
    omega
  · have h0 := tiles_bounds htiles hj
    have h01 := tiles_bounds htiles hj1
    omega
  · subst hcb
    exact ⟨t, tk, rest, hE, hr, hg, ho⟩
  · have hlast : (neTokens e c)[init.length]? = some (t, c') := by
      rw [hE]
      exact getElem?_append_mid _ _ _
    have := tiles_bounds htiles hlast
    omega

theorem append_mid_pair {α : Type} (A I R : List α) (x y : α) :
    (A ++ (I ++ [x]) ++ (y :: R))[(A ++ I).length]? = some x ∧
    (A ++ (I ++ [x]) ++ (y :: R))[(A ++ I).length + 1]? = some y := by
  have hshape : A ++ (I ++ [x]) ++ (y :: R) = (A ++ I) ++ (x :: y :: R) := by
    simp [List.append_assoc]
  rw [hshape]
  exact ⟨getElem?_append_mid _ _ _, getElem?_append_mid2 _ _ _ _⟩

open GreenElement in
/-- Master correctness of `token_at_offset` on well-formed non-empty
subtrees: the search never panics and its result is characterized by
`TaoSpec`. -/
theorem master : ∀ fuel : Nat, MasterP fuel := by
  intro fuel
  induction fuel with
  | zero =>
    intro n off hv hd hlen hlb hub
    have := depth_pos n.green
    omega
  | succ fuel ih =>
    intro n off hv hd hlen hlb hub
    obtain ⟨kk, cs, hg⟩ := exists_node_of_isNode hv.green_isNode
    have hch : n.green.children = cs := by rw [hg]; rfl
    have hlencs : n.green.text_len = textLenList cs := by rw [hg]; rfl
    have hdepthcs : n.green.depth = (GreenElement.node kk cs).depth := by rw [hg]
    have hcond : n.text_range.start ≤ off ∧ off ≤ n.text_range.stop := ⟨hlb, hub⟩
    have hnem : ¬ (n.text_range.isEmpty = true) := by
      show ¬ ((n.startOffset == n.startOffset + n.green.text_len) = true)
      simp
      omega
    have hunfold : tokenAtOffsetNodeGo (fuel + 1) n off =
        (match (n.children_with_tokens).filter (fun child =>
          !child.text_range.isEmpty &&
            (decide (child.text_range.start ≤ off) &&
              decide (off ≤ child.text_range.stop))) with
        | [] => none
        | [l] => tokenAtOffsetElWith (fun m => tokenAtOffsetNodeGo fuel m off) l off
        | [l, r] =>
          match tokenAtOffsetElWith (fun m => tokenAtOffsetNodeGo fuel m off) l off,
              tokenAtOffsetElWith (fun m => tokenAtOffsetNodeGo fuel m off) r off with
          | some (.single lt), some (.single rt) => some (.between lt rt)
          | _, _ => none
        | _ :: _ :: _ :: _ => none) := by
      simp only [tokenAtOffsetNodeGo]
      rw [if_pos hcond, if_neg hnem]
    rw [hunfold, cand_comm, SyntaxNode.text_range_start, hch]
    have hsum : textLenList cs ≠ 0 := by omega
    have hub' : off ≤ n.startOffset + textLenList cs := by omega
    rcases cand_spec cs 0 n.startOffset off hlb hub' hsum with
      ⟨k, e, c, hfil, hke, hc, hne, hcl, hcu, href⟩ |
      ⟨k1, e1, c1, k2, e2, c2, hfil, hk1, hk2, hc1, hc2, hne1, hne2, hklt, ho1, ho2⟩
    · -- single candidate
      simp only [Nat.zero_add] at hfil
      rw [hfil]
      simp only [List.map_cons, List.map_nil]
      have he' : n.green.children[k]? = some e := by rw [hch]; exact hke
      have hc' : c = n.startOffset + textLenList (n.green.children.take k) := by
        rw [hch]; exact hc
      have hd' : e.depth ≤ fuel := by
        have : e.depth < (GreenElement.node kk cs).depth := depth_child_lt hke
        rw [← hdepthcs] at this
        omega
      obtain ⟨r, hrEl, hspec⟩ := elGo_spec ih hv he' hc' hd' hne hcl hcu
      refine ⟨r, hrEl, ?_⟩
      rw [hg]
      exact taoSpec_lift hke hc hne href hspec
    · -- two candidates meeting at the offset
      simp only [Nat.zero_add] at hfil
      rw [hfil]
      simp only [List.map_cons, List.map_nil]
      have he1' : n.green.children[k1]? = some e1 := by rw [hch]; exact hk1
      have he2' : n.green.children[k2]? = some e2 := by rw [hch]; exact hk2
      have hc1' : c1 = n.startOffset + textLenList (n.green.children.take k1) := by
        rw [hch]; exact hc1
      have hc2' : c2 = n.startOffset + textLenList (n.green.children.take k2) := by
        rw [hch]; exact hc2
      have hd1 : e1.depth ≤ fuel := by
        have : e1.depth < (GreenElement.node kk cs).depth := depth_child_lt hk1
        rw [← hdepthcs] at this
        omega
      have hd2 : e2.depth ≤ fuel := by
        have : e2.depth < (GreenElement.node kk cs).depth := depth_child_lt hk2
        rw [← hdepthcs] at this
        omega
      have hcl1 : c1 ≤ off := by omega
      have hcu1 : off ≤ c1 + e1.text_len := by omega
      have hcl2 : c2 ≤ off := by omega
      have hcu2 : off ≤ c2 + e2.text_len := by omega
      obtain ⟨rl, hrl, hspecl⟩ := elGo_spec ih hv he1' hc1' hd1 hne1 hcl1 hcu1
      obtain ⟨rr, hrr, hspecr⟩ := elGo_spec ih hv he2' hc2' hd2 hne2 hcl2 hcu2
      obtain ⟨tl, cl', tkl, init, hEl, hocl, hrleq, hgl, holt⟩ :=
        taoSpec_end_extract ho1 hne1 hspecl
      obtain ⟨tr, tkr, rest2, hEr, hrreq, hgrr, horr⟩ :=
        taoSpec_start_extract ho2 hne2 hspecr
      rw [hrleq] at hrl
      rw [hrreq] at hrr
      refine ⟨.between tkl tkr, ?_, ?_⟩
      · rw [hrl, hrr]
      · -- build the Between characterization on the parent
        rw [hg]
        unfold TaoSpec
        right; left
        -- decompose the parent token list around both candidates
        have hsplit1 := neTokensList_split hk1 n.startOffset
        rw [← hc1] at hsplit1
        have hsumsucc1 : textLenList (cs.take (k1 + 1)) =
            textLenList (cs.take k1) + e1.text_len := textLenList_take_succ hk1
        have hb' : n.startOffset + textLenList (cs.take (k1 + 1)) = c2 := by omega
        rw [hb'] at hsplit1
        -- locate the second candidate inside the remainder
        have hd2idx : (cs.drop (k1 + 1))[k2 - (k1 + 1)]? = some e2 := by
          rw [List.getElem?_drop]
          have harith : k1 + 1 + (k2 - (k1 + 1)) = k2 := by omega
          rw [harith]
          exact hk2
        have hsplit2 := neTokensList_split hd2idx c2
        have hmid0 : textLenList ((cs.drop (k1 + 1)).take (k2 - (k1 + 1))) = 0 := by
          have h1 := textLenList_take_add cs (k1 + 1) (k2 - (k1 + 1))
          have harith : k1 + 1 + (k2 - (k1 + 1)) = k2 := by omega
          rw [harith] at h1
          omega
        have hmidnil : neTokensList ((cs.drop (k1 + 1)).take (k2 - (k1 + 1))) c2 = [] :=
          neTokensList_of_zero hmid0
        rw [hmidnil, hmid0] at hsplit2
        simp only [Nat.add_zero, List.nil_append] at hsplit2
        rw [hsplit2] at hsplit1
        rw [hEl, hEr] at hsplit1
        rw [neTokens_node, hsplit1]
        refine ⟨(neTokensList (cs.take k1) n.startOffset ++ init).length,
          tl, cl', tr, c2, tkl, tkr, ?_, ?_, hocl, ho2, rfl, hgl, holt, hgrr, horr⟩
        · exact (append_mid_pair _ _ _ _ _).1
        · exact (append_mid_pair _ _ _ _ _).2

/-- C10: on a well-formed green tree, for an offset meeting the
precondition on a node with a non-empty range, the filtered candidate
list has exactly one or exactly two entries — so the `unwrap` of the
first candidate cannot fail and the at-most-two `assert!` cannot fire —
and `token_at_offset` returns without panicking; the only `none`
outcomes of the model are the stated precondition and
structural-invariant checks. -/
theorem claim_C10 :
    (∀ (n : SyntaxNode) (off : Nat), n.Valid → n.green.text_len ≠ 0 →
      n.text_range.start ≤ off → off ≤ n.text_range.stop →
      ((n.children_with_tokens).filter (fun child =>
        !child.text_range.isEmpty &&
          (decide (child.text_range.start ≤ off) &&
            decide (off ≤ child.text_range.stop)))).length = 1 ∨
      ((n.children_with_tokens).filter (fun child =>
        !child.text_range.isEmpty &&
          (decide (child.text_range.start ≤ off) &&
            decide (off ≤ child.text_range.stop)))).length = 2) ∧
    (∀ (n : SyntaxNode) (off : Nat), n.Valid →
      n.text_range.start ≤ off → off ≤ n.text_range.stop →
      ∃ r, n.token_at_offset off = some r) := by
  constructor
  · intro n off hv hlen hlb hub
    obtain ⟨kk, cs, hg⟩ := exists_node_of_isNode hv.green_isNode
    have hch : n.green.children = cs := by rw [hg]; rfl
    have hlencs : n.green.text_len = GreenElement.textLenList cs := by rw [hg]; rfl
    rw [cand_comm, SyntaxNode.text_range_start, hch]
    have hlb' : n.startOffset ≤ off := hlb
    have hub' : off ≤ n.startOffset + GreenElement.textLenList cs := by
      have : off ≤ n.startOffset + n.green.text_len := hub
      omega
    rcases cand_spec cs 0 n.startOffset off hlb' hub' (by omega) with
      ⟨k, e, c, hfil, _⟩ | ⟨k1, e1, c1, k2, e2, c2, hfil, _⟩
    · left
      rw [hfil]
      rfl
    · right
      rw [hfil]
      rfl
  · intro n off hv hlb hub
    by_cases hlen : n.green.text_len = 0
    · refine ⟨TokenAtOffset.none, ?_⟩
      unfold SyntaxNode.token_at_offset tokenAtOffsetNodeGo
      simp only []
      rw [if_pos ⟨hlb, hub⟩]
      rw [if_pos (by show (n.startOffset == n.startOffset + n.green.text_len) = true; simp [hlen])]
    · obtain ⟨r, hr, _⟩ := master (n.green.depth + 1) n off hv (by omega) hlen hlb
        (by have : off ≤ n.text_range.stop := hub; exact this)
      exact ⟨r, hr⟩

/-- Witness for C10 on the S1 root at offset 2. -/
theorem claim_C10_witness :
    (((s1Root.children_with_tokens).filter (fun child =>
        !child.text_range.isEmpty &&
          (decide (child.text_range.start ≤ 2) &&
            decide (2 ≤ child.text_range.stop)))).length = 1 ∨
     ((s1Root.children_with_tokens).filter (fun child =>
        !child.text_range.isEmpty &&
          (decide (child.text_range.start ≤ 2) &&
            decide (2 ≤ child.text_range.stop)))).length = 2) ∧
    ∃ r, s1Root.token_at_offset 2 = some r :=
  ⟨claim_C10.1 s1Root 2 (.root _ rfl) (by decide) (by decide) (by decide),
   claim_C10.2 s1Root 2 (.root _ rfl) (by decide) (by decide)⟩

open GreenElement in
/-- C1: for a well-formed node and an in-precondition offset,
`token_at_offset` returns `Single(t)` when the offset is strictly inside
the non-empty token `t` of the subtree, `Between(l, r)` when the offset
is the shared boundary of adjacent non-empty tokens `l` and `r`, and
`TokenAtOffset::None` when the node's range is empty; child containment
is tested with inclusive endpoints (the `≤` comparisons in the filter,
as characterized by `candP`). -/
theorem claim_C1 :
    (∀ (n : SyntaxNode) (off : Nat), n.Valid → n.text_range.start ≤ off →
      off ≤ n.text_range.stop →
      ∀ (j : Nat) (t : GreenElement) (c : Nat),
        (neTokens n.green n.text_range.start)[j]? = some (t, c) →
        c < off → off < c + t.text_len →
        ∃ tk, n.token_at_offset off = some (.single tk) ∧
          tk.green = t ∧ tk.offset = c) ∧
    (∀ (n : SyntaxNode) (off : Nat), n.Valid → n.text_range.start ≤ off →
      off ≤ n.text_range.stop →
      ∀ (j : Nat) (tl : GreenElement) (cl : Nat) (tr : GreenElement) (cr : Nat),
        (neTokens n.green n.text_range.start)[j]? = some (tl, cl) →
        (neTokens n.green n.text_range.start)[j + 1]? = some (tr, cr) →
        off = cl + tl.text_len → off = cr →
        ∃ tkl tkr, n.token_at_offset off = some (.between tkl tkr) ∧
          tkl.green = tl ∧ tkl.offset = cl ∧ tkr.green = tr ∧ tkr.offset = cr) ∧
    (∀ (n : SyntaxNode) (off : Nat), n.green.text_len = 0 →
      n.text_range.start ≤ off → off ≤ n.text_range.stop →
      n.token_at_offset off = some TokenAtOffset.none) := by
  refine ⟨?_, ?_, ?_⟩
  · -- strictly inside a token
    intro n off hv hlb hub j t c hj h1 h2
    rw [SyntaxNode.text_range_start] at hj
    have htiles := neTokens_tiles n.green n.startOffset
    have hbt := tiles_bounds htiles hj
    have hlen : n.green.text_len ≠ 0 := by omega
    obtain ⟨r, hr, hspec⟩ := master (n.green.depth + 1) n off hv (by omega) hlen hlb
      (by have : off ≤ n.text_range.stop := hub; exact this)
    rcases hspec with ⟨j', t', c', tk, hj', h1', h2', hr', hg', ho'⟩ |
      ⟨j1, tl, cl, tr, cr, tkl, tkr, hjl, hjr, hb1, hb2, hr', _⟩ |
      ⟨hoffb, _⟩ | ⟨hoffe, t', c', tk, init, hE, hoc, hr', _⟩
    · -- result is a single token: must be the same entry
      have hjj : j = j' := by
        rcases Nat.lt_trichotomy j j' with hlt | heq | hgt
        · have := tiles_sep htiles hlt hj hj'
          omega
        · exact heq
        · have := tiles_sep htiles hgt hj' hj
          omega
      subst hjj
      rw [hj'] at hj
      injection hj with hj
      injection hj with hjt hjc
      subst hjt
      subst hjc
      refine ⟨tk, ?_, hg', ho'⟩
      show tokenAtOffsetNodeGo (n.green.depth + 1) n off = some (.single tk)
      rw [hr, hr']
    · -- a boundary result contradicts strict containment
      exfalso
      have hbr := tiles_bounds htiles hjr
      have hbl := tiles_bounds htiles hjl
      rcases Nat.lt_trichotomy j (j1 + 1) with hlt | heq | hgt
      · rcases Nat.lt_trichotomy j j1 with hlt2 | heq2 | hgt2
        · have := tiles_sep htiles hlt2 hj hjl
          omega
        · subst heq2
          rw [hjl] at hj
          injection hj with hj
          injection hj with hjt hjc
          have hte : tl.text_len = t.text_len := by rw [hjt]
          omega
        · omega
      · rw [← heq] at hjr
        rw [hjr] at hj
        injection hj with hj
        injection hj with hjt hjc
        have hte : tr.text_len = t.text_len := by rw [hjt]
        omega
      · have := tiles_sep htiles hgt hjr hj
        omega
    · -- an offset on the node's start edge is not strictly inside
      exfalso
      omega
    · -- an offset on the node's end edge is not strictly inside
      exfalso
      omega
  · -- between two adjacent tokens
    intro n off hv hlb hub j tl cl tr cr hjl hjr hol hor
    rw [SyntaxNode.text_range_start] at hjl hjr
    have htiles := neTokens_tiles n.green n.startOffset
    have hbl := tiles_bounds htiles hjl
    have hbr := tiles_bounds htiles hjr
    have hlen : n.green.text_len ≠ 0 := by omega
    obtain ⟨r, hr, hspec⟩ := master (n.green.depth + 1) n off hv (by omega) hlen hlb
      (by have : off ≤ n.text_range.stop := hub; exact this)
    rcases hspec with ⟨j', t', c', tk, hj', h1', h2', hr', hg', ho'⟩ |
      ⟨j1, tl', cl', tr', cr', tkl, tkr, hjl', hjr', hb1, hb2, hr', hgl', hol', hgr', hor'⟩ |
      ⟨hoffb, _⟩ | ⟨hoffe, t', c', tk, init, hE, hoc, hr', _⟩
    · -- a single strictly-inside result contradicts the boundary
      exfalso
      rcases Nat.lt_trichotomy j' j with hlt | heq | hgt
      · have := tiles_sep htiles hlt hj' hjl
        omega
      · subst heq
        rw [hjl] at hj'
        injection hj' with hj'
        injection hj' with hjt hjc
        have hte : tl.text_len = t'.text_len := by rw [hjt]
        omega
      · have hge : j + 1 ≤ j' := hgt
        rcases Nat.lt_or_ge (j + 1) j' with hlt2 | hge2
        · have := tiles_sep htiles hlt2 hjr hj'
          omega
        · have heq2 : j' = j + 1 := by omega
          subst heq2
          rw [hjr] at hj'
          injection hj' with hj'
          injection hj' with hjt hjc
          omega
    · -- the boundary entries coincide
      have hbp1 := tiles_bounds htiles hjl'
      have hbp2 := tiles_bounds htiles hjr'
      have hjj : j1 = j := by
        rcases Nat.lt_trichotomy j1 j with hlt | heq | hgt
        · have := tiles_sep htiles hlt hjl' hjl
          omega
        · exact heq
        · have := tiles_sep htiles hgt hjl hjl'
          omega
      subst hjj
      rw [hjl'] at hjl
      injection hjl with hjl
      injection hjl with h1t h1c
      rw [hjr'] at hjr
      injection hjr with hjr
      injection hjr with h2t h2c
      subst h1t
      subst h1c
      subst h2t
      subst h2c
      refine ⟨tkl, tkr, ?_, hgl', hol', hgr', hor'⟩
      show tokenAtOffsetNodeGo (n.green.depth + 1) n off = some (.between tkl tkr)
      rw [hr, hr']
    · exfalso
      omega
    · -- the subtree's end edge cannot be an interior boundary
      exfalso
      have hlast : (neTokens n.green n.startOffset)[init.length]? = some (t', c') := by
        rw [hE]
        exact getElem?_append_mid _ _ _
      have hbl' := tiles_bounds htiles hlast
      rcases Nat.lt_trichotomy (j + 1) init.length with hlt | heq | hgt
      · have := tiles_sep htiles hlt hjr hlast
        omega
      · rw [← heq] at hlast
        rw [hjr] at hlast
        injection hlast with hlast
        injection hlast with hjt hjc
        omega
      · have := tiles_sep htiles hgt hlast hjr
        omega
  · -- empty range
    intro n off hlen hlb hub
    unfold SyntaxNode.token_at_offset tokenAtOffsetNodeGo
    simp only []
    rw [if_pos ⟨hlb, hub⟩]
    rw [if_pos (by show (n.startOffset == n.startOffset + n.green.text_len) = true; simp [hlen])]

/-- Witness for C1 on S1: offset 2 is strictly inside `B("yy")`, offset
1 is the `A`/`B` boundary, and an empty root yields `None`. -/
theorem claim_C1_witness :
    (∃ tk, s1Root.token_at_offset 2 = some (.single tk) ∧
      tk.green = tokB ∧ tk.offset = 1) ∧
    (∃ tkl tkr, s1Root.token_at_offset 1 = some (.between tkl tkr) ∧
      tkl.green = tokA ∧ tkl.offset = 0 ∧ tkr.green = tokB ∧ tkr.offset = 1) ∧
    (SyntaxNode.root (.node 7 [])).token_at_offset 0 = some TokenAtOffset.none :=
  ⟨claim_C1.1 s1Root 2 (.root _ rfl) (by decide) (by decide) 1 tokB 1 (by decide)
      (by decide) (by decide),
   claim_C1.2.1 s1Root 1 (.root _ rfl) (by decide) (by decide) 0 tokA 0 tokB 1
      (by decide) (by decide) (by decide) (by decide),
   claim_C1.2.2 (SyntaxNode.root (.node 7 [])) 0 (by decide) (by decide) (by decide)⟩

/-! ### Preorder walk (claim C3)

`preorderSpec` is the recursive event list following the spec's
description of the walk (§4.6: Enter, children in order, Leave; tokens
emit an Enter/Leave pair); the claim theorem proves the iterator of
`cursor.rs` produces exactly this list and the properties stated in the
claim. -/

mutual
/-- Spec-side events of the child at index `i`, absolute offset `b`. -/
def specEventsChild : GreenElement → SyntaxNode → Nat → Nat →
    List (WalkEvent SyntaxElement)
  | .token _ _, p, i, b =>
    [.enter (.tokenEl ⟨p, i, b⟩), .leave (.tokenEl ⟨p, i, b⟩)]
  | .node _ cs, p, i, b =>
    .enter (.nodeEl (.child p i b)) ::
      (specEventsKids cs (.child p i b) 0 b ++ [.leave (.nodeEl (.child p i b))])

/-- Spec-side events of the children `cs` of `p` starting at index `i`,
absolute offset `b`. -/
def specEventsKids : List GreenElement → SyntaxNode → Nat → Nat →
    List (WalkEvent SyntaxElement)
  | [], _, _, _ => []
  | c :: cs, p, i, b =>
    specEventsChild c p i b ++ specEventsKids cs p (i + 1) (b + c.text_len)
end

/-- Spec-side event list of a whole walk (`Modelled from the spec`,
§4.6): Enter the start node, walk the children in order, Leave it. -/
def preorderSpec (n : SyntaxNode) : List (WalkEvent SyntaxElement) :=
  .enter (.nodeEl n) ::
    (specEventsKids n.green.children n 0 n.text_range.start ++ [.leave (.nodeEl n)])

/-- Per-element event list used by the trace lemma. -/
def eventsOf : SyntaxElement → List (WalkEvent SyntaxElement)
  | .tokenEl t => [.enter (.tokenEl t), .leave (.tokenEl t)]
  | .nodeEl m => .enter (.nodeEl m) ::
      (specEventsKids m.green.children m 0 m.text_range.start ++ [.leave (.nodeEl m)])

theorem eventsOf_child_eq {c : GreenElement} {p : SyntaxNode} {i b : Nat}
    (hc : p.green.children[i]? = some c) :
    specEventsChild c p i b = eventsOf (SyntaxElement.new c p i b) := by
  cases c with
  | token kk s => rfl
  | node kk cs =>
    show _ = WalkEvent.enter (.nodeEl (.child p i b)) ::
      (specEventsKids (SyntaxNode.child p i b).green.children (.child p i b) 0
        (SyntaxNode.child p i b).text_range.start ++ [.leave (.nodeEl (.child p i b))])
    rw [child_green hc]
    rfl

theorem eventsOf_dropLast_concat (el : SyntaxElement) :
    eventsOf el = (eventsOf el).dropLast ++ [.leave el] := by
  cases el with
  | tokenEl t => rfl
  | nodeEl m =>
    show WalkEvent.enter (.nodeEl m) ::
        (specEventsKids m.green.children m 0 m.text_range.start ++ [.leave (.nodeEl m)]) =
      (WalkEvent.enter (.nodeEl m) ::
        (specEventsKids m.green.children m 0 m.text_range.start ++
          [.leave (.nodeEl m)])).dropLast ++ [.leave (.nodeEl m)]
    rw [← List.cons_append, List.dropLast_concat]

theorem successorsList_succ {α : Type} (f : α → Option α) (fuel : Nat) (a : α) :
    successorsList f (fuel + 1) a =
      a :: (match f a with
            | none => []
            | some b => successorsList f fuel b) := rfl

theorem sizeOf_child_lt_green {g : GreenElement} {i : Nat} {c : GreenElement}
    (hc : g.children[i]? = some c) : sizeOf c < sizeOf g := by
  cases g with
  | token k s => simp [GreenElement.children] at hc
  | node k cs =>
    have hmem : c ∈ cs := List.getElem?_mem hc
    have := List.sizeOf_lt_of_mem hmem
    simp only [GreenElement.node.sizeOf_spec]
    omega

/-- A token is never the starting element, and a node whose green is
strictly smaller than the start cannot compare equal to it. -/
theorem eqv_start_false {el : SyntaxElement} {n0 : SyntaxNode}
    (h : sizeOf el.green < sizeOf n0.green) :
    SyntaxElement.eqv el (.nodeEl n0) = false := by
  cases el with
  | tokenEl t => rfl
  | nodeEl m =>
    show SyntaxNode.eqv m n0 = false
    unfold SyntaxNode.eqv
    have hne : m.green ≠ n0.green := by
      intro he
      rw [SyntaxElement.green, he] at h
      omega
    simp [hne]

theorem eqv_nodeEl_self (n : SyntaxNode) :
    SyntaxElement.eqv (.nodeEl n) (.nodeEl n) = true := by
  show SyntaxNode.eqv n n = true
  simp [SyntaxNode.eqv]

/-- The step function of the walk halts at `Leave(start)`. -/
theorem step_leave_start (n : SyntaxNode) :
    preorderWTStep (.nodeEl n) (.leave (.nodeEl n)) = none := by
  simp [preorderWTStep, eqv_nodeEl_self]

theorem new_parent (c : GreenElement) (p : SyntaxNode) (i b : Nat) :
    (SyntaxElement.new c p i b).parent = some p := by
  cases c <;> rfl

theorem new_stop {p : SyntaxNode} {i b : Nat} {c : GreenElement}
    (hc : p.green.children[i]? = some c) :
    (SyntaxElement.new c p i b).text_range.stop = b + c.text_len := by
  cases c with
  | token k s =>
    show (SyntaxToken.text_range ⟨p, i, b⟩).stop = _
    unfold SyntaxToken.text_range
    rw [token_green_eq hc]
    rfl
  | node k cs =>
    show (SyntaxNode.text_range (.child p i b)).stop = _
    unfold SyntaxNode.text_range
    rw [child_green hc]
    rfl

theorem new_nsot_nil {p : SyntaxNode} {i b : Nat} {c : GreenElement}
    (hc : p.green.children[i]? = some c)
    (hd : p.green.children.drop (i + 1) = []) :
    (SyntaxElement.new c p i b).next_sibling_or_token = none := by
  have hfrom : ∀ o : Nat, p.green.children_from (i + 1) o = [] := by
    intro o
    unfold GreenElement.children_from
    rw [hd]
    rfl
  cases c with
  | token k s =>
    show SyntaxToken.next_sibling_or_token ⟨p, i, b⟩ = none
    unfold SyntaxToken.next_sibling_or_token
    rw [hfrom]
  | node k cs =>
    show SyntaxNode.next_sibling_or_token (.child p i b) = none
    simp only [SyntaxNode.next_sibling_or_token]
    rw [hfrom]

theorem new_nsot_cons {p : SyntaxNode} {i b : Nat} {c c2 : GreenElement}
    {cs : List GreenElement}
    (hc : p.green.children[i]? = some c)
    (hd : p.green.children.drop (i + 1) = c2 :: cs) :
    (SyntaxElement.new c p i b).next_sibling_or_token =
      some (SyntaxElement.new c2 p (i + 1) (b + c.text_len)) := by
  have hfrom : p.green.children_from (i + 1) (b + c.text_len) =
      (c2, i + 1, b + c.text_len) :: childrenFromAux cs (i + 2) (b + c.text_len + c2.text_len) := by
    unfold GreenElement.children_from
    rw [hd]
    rfl
  cases c with
  | token k s =>
    show SyntaxToken.next_sibling_or_token ⟨p, i, b⟩ = _
    have hstop : (SyntaxToken.text_range ⟨p, i, b⟩).stop = b + (GreenElement.token k s).text_len :=
      new_stop hc
    unfold SyntaxToken.next_sibling_or_token
    dsimp only
    rw [hstop, hfrom]
  | node k cs' =>
    show SyntaxNode.next_sibling_or_token (.child p i b) = _
    have hstop : (SyntaxNode.text_range (.child p i b)).stop =
        b + (GreenElement.node k cs').text_len := new_stop hc
    simp only [SyntaxNode.next_sibling_or_token]
    rw [hstop, hfrom]

theorem fcot_nil {m : SyntaxNode} (hm : m.green.children = []) :
    m.first_child_or_token = none := by
  unfold SyntaxNode.first_child_or_token GreenElement.children_from
  rw [hm]
  rfl

theorem fcot_cons {m : SyntaxNode} {c : GreenElement} {cs : List GreenElement}
    (hm : m.green.children = c :: cs) :
    m.first_child_or_token = some (SyntaxElement.new c m 0 m.text_range.start) := by
  unfold SyntaxNode.first_child_or_token GreenElement.children_from
  rw [hm]
  rfl

theorem token_green_is_token (t : SyntaxToken) : ∃ k s, t.green = .token k s := by
  unfold SyntaxToken.green
  split
  · exact ⟨_, _, rfl⟩
  · exact ⟨0, "", rfl⟩

theorem successorsList_some {α : Type} (f : α → Option α) (fuel : Nat) {a b : α}
    (h : f a = some b) :
    successorsList f (fuel + 1) a = a :: successorsList f fuel b := by
  simp only [successorsList]
  rw [h]

theorem successorsList_halt {α : Type} (f : α → Option α) (fuel : Nat) {a : α}
    (h : f a = none) :
    successorsList f (fuel + 1) a = [a] := by
  simp only [successorsList]
  rw [h]

theorem step_enter_token (start : SyntaxElement) (t : SyntaxToken) :
    preorderWTStep start (.enter (.tokenEl t)) = some (.leave (.tokenEl t)) := rfl

theorem step_enter_node {start ch : SyntaxElement} {m : SyntaxNode}
    (h : m.first_child_or_token = some ch) :
    preorderWTStep start (.enter (.nodeEl m)) = some (.enter ch) := by
  simp [preorderWTStep, h]

theorem step_enter_leaf {start : SyntaxElement} {m : SyntaxNode}
    (h : m.first_child_or_token = none) :
    preorderWTStep start (.enter (.nodeEl m)) = some (.leave (.nodeEl m)) := by
  simp [preorderWTStep, h]

theorem step_leave_sib {start el sib : SyntaxElement}
    (h1 : SyntaxElement.eqv el start = false)
    (h2 : el.next_sibling_or_token = some sib) :
    preorderWTStep start (.leave el) = some (.enter sib) := by
  simp [preorderWTStep, h1, h2]

theorem step_leave_up {start el : SyntaxElement} {p : SyntaxNode}
    (h1 : SyntaxElement.eqv el start = false)
    (h2 : el.next_sibling_or_token = none)
    (h3 : el.parent = some p) :
    preorderWTStep start (.leave el) = some (.leave (.nodeEl p)) := by
  simp [preorderWTStep, h1, h2, h3]

mutual
/-- Trace of the walk across one subtree element that is not the start:
the iterator emits the element's events and is left standing at its
`Leave`. -/
theorem walk_el (n0 : SyntaxNode) (e : GreenElement) (el : SyntaxElement)
    (hv : el.Valid) (hg : el.green = e) (hlt : sizeOf e < sizeOf n0.green) (fuel : Nat) :
    successorsList (preorderWTStep (.nodeEl n0)) (2 * e.count + fuel) (.enter el) =
      (eventsOf el).dropLast ++
        successorsList (preorderWTStep (.nodeEl n0)) (fuel + 1) (.leave el) := by
  cases e with
  | token k s =>
    cases el with
    | nodeEl m =>
      have hg' : m.green = .token k s := hg
      have hvn : m.Valid := hv
      have := hvn.green_isNode
      rw [hg'] at this
      simp [GreenElement.isNode] at this
    | tokenEl t =>
      rw [show 2 * GreenElement.count (.token k s) + fuel = fuel + 1 + 1 from by
        simp [GreenElement.count]; omega]
      rw [successorsList_some (preorderWTStep (.nodeEl n0)) (fuel + 1)
        (step_enter_token (.nodeEl n0) t)]
      simp [eventsOf, List.dropLast]
  | node kk cs =>
    cases el with
    | tokenEl t =>
      obtain ⟨k', s', ht⟩ := token_green_is_token t
      have hg' : t.green = .node kk cs := hg
      rw [ht] at hg'
      simp at hg'
    | nodeEl m =>
      have hvn : m.Valid := hv
      have hg' : m.green = .node kk cs := hg
      cases cs with
      | nil =>
        have hm : m.green.children = [] := by rw [hg']; rfl
        have hfc : m.first_child_or_token = none := fcot_nil hm
        rw [show 2 * GreenElement.count (.node kk []) + fuel = fuel + 1 + 1 from by
          simp [GreenElement.count, GreenElement.countList]; omega]
        rw [successorsList_some (preorderWTStep (.nodeEl n0)) (fuel + 1)
          (step_enter_leaf hfc)]
        simp [eventsOf, hm, specEventsKids, List.dropLast]
      | cons c cs' =>
        have hm : m.green.children = c :: cs' := by rw [hg']; rfl
        have hfc : m.first_child_or_token =
            some (SyntaxElement.new c m 0 m.text_range.start) := fcot_cons hm
        rw [show 2 * GreenElement.count (.node kk (c :: cs')) + fuel =
            2 * GreenElement.countList (c :: cs') + (fuel + 1) + 1 from by
          simp [GreenElement.count]; omega]
        rw [successorsList_some (preorderWTStep (.nodeEl n0))
          (2 * GreenElement.countList (c :: cs') + (fuel + 1)) (step_enter_node hfc)]
        have hdrop : m.green.children.drop 0 = c :: cs' := by
          rw [List.drop_zero]; exact hm
        have hb : m.text_range.start =
            m.startOffset + GreenElement.textLenList (m.green.children.take 0) := by
          simp [SyntaxNode.text_range_start, GreenElement.textLenList]
        have hle : sizeOf m.green ≤ sizeOf n0.green := by
          rw [hg']; omega
        rw [walk_kids n0 cs' c m 0 m.text_range.start hvn hdrop hb hle (fuel + 1)]
        simp only [eventsOf, hm]
        conv_rhs => rw [← List.cons_append, List.dropLast_concat]
        simp [List.cons_append]
termination_by sizeOf e
decreasing_by
  all_goals simp_wf
  all_goals ((try subst_vars); (try simp_all only [SyntaxElement.green, GreenElement.node.sizeOf_spec, List.cons.sizeOf_spec, List.nil.sizeOf_spec]); omega)

/-- Trace of the walk across a run of consecutive siblings of a node `m`
that is not the start: the iterator emits their events and is left
standing at `Leave(m)`. -/
theorem walk_kids (n0 : SyntaxNode) (cs : List GreenElement) (c : GreenElement)
    (m : SyntaxNode) (i b : Nat)
    (hv : m.Valid)
    (hdrop : m.green.children.drop i = c :: cs)
    (hb : b = m.startOffset + GreenElement.textLenList (m.green.children.take i))
    (hle : sizeOf m.green ≤ sizeOf n0.green) (fuel : Nat) :
    successorsList (preorderWTStep (.nodeEl n0)) (2 * GreenElement.countList (c :: cs) + fuel)
        (.enter (SyntaxElement.new c m i b)) =
      specEventsKids (c :: cs) m i b ++
        successorsList (preorderWTStep (.nodeEl n0)) fuel (.leave (.nodeEl m)) := by
  have h0 := List.getElem?_drop m.green.children i 0
  rw [hdrop] at h0
  have hc : m.green.children[i]? = some c := by simpa using h0.symm
  have hvel : (SyntaxElement.new c m i b).Valid := by
    have := valid_new hv hc
    rwa [← hb] at this
  have hgel : (SyntaxElement.new c m i b).green = c := new_green hc
  have hltc : sizeOf c < sizeOf n0.green :=
    lt_of_lt_of_le (sizeOf_child_lt_green hc) hle
  have heqv : SyntaxElement.eqv (SyntaxElement.new c m i b) (.nodeEl n0) = false :=
    eqv_start_false (by rw [hgel]; exact hltc)
  cases cs with
  | nil =>
    have hdrop' : m.green.children.drop (i + 1) = [] := by
      rw [← List.tail_drop, hdrop]
      rfl
    have hns : (SyntaxElement.new c m i b).next_sibling_or_token = none :=
      new_nsot_nil hc hdrop'
    have hstep : preorderWTStep (.nodeEl n0) (.leave (SyntaxElement.new c m i b)) =
        some (.leave (.nodeEl m)) :=
      step_leave_up heqv hns (new_parent c m i b)
    rw [show 2 * GreenElement.countList [c] + fuel = 2 * GreenElement.count c + fuel from by
      simp [GreenElement.countList]]
    rw [walk_el n0 c (SyntaxElement.new c m i b) hvel hgel hltc fuel]
    rw [successorsList_some (preorderWTStep (.nodeEl n0)) fuel hstep]
    simp only [specEventsKids, List.append_nil]
    rw [eventsOf_child_eq hc]
    conv_rhs => rw [eventsOf_dropLast_concat (SyntaxElement.new c m i b)]
    simp [List.append_assoc]
  | cons c2 cs'' =>
    have hdrop' : m.green.children.drop (i + 1) = c2 :: cs'' := by
      rw [← List.tail_drop, hdrop]
      rfl
    have hns : (SyntaxElement.new c m i b).next_sibling_or_token =
        some (SyntaxElement.new c2 m (i + 1) (b + c.text_len)) :=
      new_nsot_cons hc hdrop'
    have hstep : preorderWTStep (.nodeEl n0) (.leave (SyntaxElement.new c m i b)) =
        some (.enter (SyntaxElement.new c2 m (i + 1) (b + c.text_len))) :=
      step_leave_sib heqv hns
    rw [show 2 * GreenElement.countList (c :: c2 :: cs'') + fuel =
        2 * GreenElement.count c + (2 * GreenElement.countList (c2 :: cs'') + fuel) from by
      simp [GreenElement.countList]; omega]
    rw [walk_el n0 c (SyntaxElement.new c m i b) hvel hgel hltc
      (2 * GreenElement.countList (c2 :: cs'') + fuel)]
    rw [successorsList_some (preorderWTStep (.nodeEl n0))
      (2 * GreenElement.countList (c2 :: cs'') + fuel) hstep]
    have hb' : b + c.text_len =
        m.startOffset + GreenElement.textLenList (m.green.children.take (i + 1)) := by
      rw [textLenList_take_succ hc, hb]
      omega
    rw [walk_kids n0 cs'' c2 m (i + 1) (b + c.text_len) hv hdrop' hb' hle fuel]
    simp only [specEventsKids]
    rw [eventsOf_child_eq hc]
    conv_rhs => rw [eventsOf_dropLast_concat (SyntaxElement.new c m i b)]
    simp [List.append_assoc]
termination_by sizeOf (c :: cs)
decreasing_by
  all_goals simp_wf
  all_goals ((try subst_vars); (try simp_all only [SyntaxElement.green, GreenElement.node.sizeOf_spec, List.cons.sizeOf_spec, List.nil.sizeOf_spec]); omega)
end


/-- The iterator of `preorder_with_tokens` produces exactly the
recursive event list of the spec. -/
theorem preorder_eq {n : SyntaxNode} (hv : n.Valid) :
    n.preorder_with_tokens = preorderSpec n := by
  have hstop : preorderWTStep (.nodeEl n) (.leave (.nodeEl n)) = none := step_leave_start n
  obtain ⟨kk, cs, hg⟩ : ∃ kk cs, n.green = .node kk cs := by
    have := hv.green_isNode
    cases hgr : n.green with
    | token k s => rw [hgr] at this; simp [GreenElement.isNode] at this
    | node k cs => exact ⟨k, cs, rfl⟩
  unfold SyntaxNode.preorder_with_tokens preorderSpec
  cases cs with
  | nil =>
    have hm : n.green.children = [] := by rw [hg]; rfl
    have hfc : n.first_child_or_token = none := fcot_nil hm
    rw [show 2 * n.green.count = 0 + 1 + 1 from by
      rw [hg]; simp [GreenElement.count, GreenElement.countList]]
    rw [successorsList_some (preorderWTStep (.nodeEl n)) (0 + 1) (step_enter_leaf hfc)]
    rw [successorsList_halt (preorderWTStep (.nodeEl n)) 0 hstop]
    rw [hm]
    rfl
  | cons c cs' =>
    have hm : n.green.children = c :: cs' := by rw [hg]; rfl
    have hfc : n.first_child_or_token =
        some (SyntaxElement.new c n 0 n.text_range.start) := fcot_cons hm
    rw [show 2 * n.green.count = 2 * GreenElement.countList (c :: cs') + 1 + 1 from by
      rw [hg]; simp [GreenElement.count]; omega]
    rw [successorsList_some (preorderWTStep (.nodeEl n))
      (2 * GreenElement.countList (c :: cs') + 1) (step_enter_node hfc)]
    have hdrop : n.green.children.drop 0 = c :: cs' := by
      rw [List.drop_zero]; exact hm
    have hb : n.text_range.start =
        n.startOffset + GreenElement.textLenList (n.green.children.take 0) := by
      simp [SyntaxNode.text_range_start, GreenElement.textLenList]
    rw [walk_kids n cs' c n 0 n.text_range.start hv hdrop hb (Nat.le_refl _) 1]
    rw [successorsList_halt (preorderWTStep (.nodeEl n)) 0 hstop]
    rw [hm]

mutual
/-- Overlay elements of the subtree rooted at the child `c` of `p` at
index `i`, absolute offset `b`, in preorder. -/
def childEls : GreenElement → SyntaxNode → Nat → Nat → List SyntaxElement
  | .token _ _, p, i, b => [.tokenEl ⟨p, i, b⟩]
  | .node _ cs, p, i, b => .nodeEl (.child p i b) :: kidsEls cs (.child p i b) 0 b

/-- Overlay elements of the subtrees of the children `cs` of `p`
starting at index `i`, absolute offset `b`, in preorder. -/
def kidsEls : List GreenElement → SyntaxNode → Nat → Nat → List SyntaxElement
  | [], _, _, _ => []
  | c :: cs, p, i, b => childEls c p i b ++ kidsEls cs p (i + 1) (b + c.text_len)
end

/-- All overlay elements of the subtree rooted at `n`, in preorder. -/
def subtreeEls (n : SyntaxNode) : List SyntaxElement :=
  .nodeEl n :: kidsEls n.green.children n 0 n.text_range.start

mutual
theorem count_child (x : SyntaxElement) :
    ∀ (c : GreenElement) (p : SyntaxNode) (i b : Nat),
      (specEventsChild c p i b).count (.enter x) = (childEls c p i b).count x ∧
      (specEventsChild c p i b).count (.leave x) = (childEls c p i b).count x
  | .token k s, p, i, b => by
    simp [specEventsChild, childEls, List.count_cons, beq_iff_eq]
  | .node k cs, p, i, b => by
    have ih := count_kids x cs (.child p i b) 0 b
    simp only [specEventsChild, childEls, List.count_cons, List.count_append,
      List.count_nil, beq_iff_eq]
    constructor
    · rw [ih.1]
      simp [List.count_cons, beq_iff_eq]
    · rw [ih.2]
      simp [List.count_cons, beq_iff_eq]

theorem count_kids (x : SyntaxElement) :
    ∀ (cs : List GreenElement) (p : SyntaxNode) (i b : Nat),
      (specEventsKids cs p i b).count (.enter x) = (kidsEls cs p i b).count x ∧
      (specEventsKids cs p i b).count (.leave x) = (kidsEls cs p i b).count x
  | [], p, i, b => by simp [specEventsKids, kidsEls]
  | c :: cs, p, i, b => by
    have ih1 := count_child x c p i b
    have ih2 := count_kids x cs p (i + 1) (b + c.text_len)
    simp only [specEventsKids, kidsEls, List.count_append]
    omega
end

/-- Enter and Leave events of the spec trace count each overlay element
exactly as often as it occurs among the subtree elements. -/
theorem count_spec (n : SyntaxNode) (x : SyntaxElement) :
    (preorderSpec n).count (.enter x) = (subtreeEls n).count x ∧
    (preorderSpec n).count (.leave x) = (subtreeEls n).count x := by
  have ih := count_kids x n.green.children n 0 n.text_range.start
  simp only [preorderSpec, subtreeEls, List.count_cons, List.count_append,
    List.count_nil, beq_iff_eq]
  constructor
  · rw [ih.1]
    simp [List.count_cons, beq_iff_eq]
  · rw [ih.2]
    simp [List.count_cons, beq_iff_eq]

/-- Index path of an overlay node from the root (child indices, top
down). -/
def pathOf : SyntaxNode → List Nat
  | .root _ => []
  | .child p i _ => pathOf p ++ [i]

/-- Index path of an overlay element. -/
def ePath : SyntaxElement → List Nat
  | .nodeEl n => pathOf n
  | .tokenEl t => pathOf t.parent ++ [t.index]

mutual
theorem paths_child :
    ∀ (c : GreenElement) (p : SyntaxNode) (i b : Nat),
      (∀ q ∈ (childEls c p i b).map ePath, ∃ r : List Nat, q = pathOf p ++ i :: r) ∧
      ((childEls c p i b).map ePath).Nodup
  | .token k s, p, i, b => by
    refine ⟨?_, by simp [childEls]⟩
    intro q hq
    simp only [childEls, List.map_cons, List.map_nil, List.mem_singleton] at hq
    exact ⟨[], by simpa [ePath] using hq⟩
  | .node k cs, p, i, b => by
    have ih := paths_kids cs (.child p i b) 0 b
    constructor
    · intro q hq
      simp only [childEls, List.map_cons, List.mem_cons] at hq
      rcases hq with rfl | hq
      · exact ⟨[], rfl⟩
      · obtain ⟨j, r, _, hq⟩ := ih.1 q hq
        refine ⟨j :: r, ?_⟩
        rw [hq]
        show pathOf (.child p i b) ++ j :: r = _
        simp [pathOf]
    · simp only [childEls, List.map_cons]
      rw [List.nodup_cons]
      refine ⟨?_, ih.2⟩
      intro hmem
      obtain ⟨j, r, _, hq⟩ := ih.1 _ hmem
      have hlen := congrArg List.length hq
      simp [ePath, pathOf] at hlen

theorem paths_kids :
    ∀ (cs : List GreenElement) (p : SyntaxNode) (i b : Nat),
      (∀ q ∈ (kidsEls cs p i b).map ePath,
        ∃ (j : Nat) (r : List Nat), i ≤ j ∧ q = pathOf p ++ j :: r) ∧
      ((kidsEls cs p i b).map ePath).Nodup
  | [], p, i, b => by simp [kidsEls]
  | c :: cs, p, i, b => by
    have ih1 := paths_child c p i b
    have ih2 := paths_kids cs p (i + 1) (b + c.text_len)
    constructor
    · intro q hq
      simp only [kidsEls, List.map_append, List.mem_append] at hq
      rcases hq with hq | hq
      · obtain ⟨r, hq⟩ := ih1.1 q hq
        exact ⟨i, r, Nat.le_refl i, hq⟩
      · obtain ⟨j, r, hj, hq⟩ := ih2.1 q hq
        exact ⟨j, r, by omega, hq⟩
    · simp only [kidsEls, List.map_append]
      rw [List.nodup_append]
      refine ⟨ih1.2, ih2.2, ?_⟩
      intro q hq1 hq2
      obtain ⟨r1, hr1⟩ := ih1.1 q hq1
      obtain ⟨j, r2, hj, hr2⟩ := ih2.1 q hq2
      rw [hr1] at hr2
      have := List.append_cancel_left hr2
      injection this with hij
      omega
end

/-- The subtree elements of a well-formed overlay node are pairwise
distinct. -/
theorem subtreeEls_nodup (n : SyntaxNode) : (subtreeEls n).Nodup := by
  have hmap : ((subtreeEls n).map ePath).Nodup := by
    have ih := paths_kids n.green.children n 0 n.text_range.start
    simp only [subtreeEls, List.map_cons]
    rw [List.nodup_cons]
    refine ⟨?_, ih.2⟩
    intro hmem
    obtain ⟨j, r, _, hq⟩ := ih.1 _ hmem
    have hlen := congrArg List.length hq
    simp [ePath] at hlen
  exact hmap.of_map

/-- Every `Enter` of a token is immediately followed by the matching
`Leave` (spec §4.6: tokens emit an Enter/Leave pair). -/
def tokenAdjacent (l : List (WalkEvent SyntaxElement)) : Prop :=
  ∀ (k : Nat) (t : SyntaxToken), l[k]? = some (.enter (.tokenEl t)) →
    l[k + 1]? = some (.leave (.tokenEl t))

theorem tokenAdjacent_nil : tokenAdjacent [] := by
  intro k t h
  simp at h

theorem tokenAdjacent_cons {ev : WalkEvent SyntaxElement}
    {l : List (WalkEvent SyntaxElement)}
    (hne : ∀ t : SyntaxToken, ev ≠ .enter (.tokenEl t))
    (h : tokenAdjacent l) : tokenAdjacent (ev :: l) := by
  intro k t hk
  cases k with
  | zero =>
    simp only [List.getElem?_cons_zero, Option.some_inj] at hk
    exact absurd hk (hne t)
  | succ k =>
    simp only [List.getElem?_cons_succ] at hk ⊢
    exact h k t hk

theorem tokenAdjacent_append {l1 l2 : List (WalkEvent SyntaxElement)}
    (h1 : tokenAdjacent l1) (h2 : tokenAdjacent l2)
    (hlast : ∃ el : SyntaxElement, l1.getLast? = some (.leave el)) :
    tokenAdjacent (l1 ++ l2) := by
  intro k t hk
  by_cases hk1 : k + 1 < l1.length
  · rw [List.getElem?_append, if_pos (by omega)] at hk
    rw [List.getElem?_append, if_pos hk1]
    exact h1 k t hk
  · by_cases hk0 : k < l1.length
    · obtain ⟨el, hel⟩ := hlast
      rw [List.getLast?_eq_getElem?] at hel
      rw [List.getElem?_append, if_pos hk0] at hk
      have hkeq : k = l1.length - 1 := by omega
      rw [hkeq, hel] at hk
      simp at hk
    · rw [List.getElem?_append, if_neg hk0] at hk
      rw [List.getElem?_append, if_neg (by omega)]
      have := h2 (k - l1.length) t hk
      rw [show k + 1 - l1.length = k - l1.length + 1 from by omega]
      exact this

theorem specEventsChild_ne_nil (c : GreenElement) (p : SyntaxNode) (i b : Nat) :
    specEventsChild c p i b ≠ [] := by
  cases c <;> simp [specEventsChild]

mutual
theorem tokAdj_child :
    ∀ (c : GreenElement) (p : SyntaxNode) (i b : Nat),
      tokenAdjacent (specEventsChild c p i b) ∧
      ∃ el : SyntaxElement, (specEventsChild c p i b).getLast? = some (.leave el)
  | .token k s, p, i, b => by
    constructor
    · intro j t hj
      match j with
      | 0 =>
        simp only [specEventsChild, List.getElem?_cons_zero, Option.some_inj] at hj
        injection hj with hj
        injection hj with hj
        rw [← hj]
        rfl
      | 1 => simp [specEventsChild] at hj
      | j + 2 => simp [specEventsChild] at hj
    · exact ⟨.tokenEl ⟨p, i, b⟩, rfl⟩
  | .node k cs, p, i, b => by
    have ih := tokAdj_kids cs (.child p i b) 0 b
    constructor
    · show tokenAdjacent (.enter (.nodeEl (.child p i b)) ::
        (specEventsKids cs (.child p i b) 0 b ++ [.leave (.nodeEl (.child p i b))]))
      refine tokenAdjacent_cons (by intro t h; exact absurd h (by simp)) ?_
      rcases ih.2 with hnil | ⟨el, hel⟩
      · rw [hnil]
        refine tokenAdjacent_cons (by intro t h; exact absurd h (by simp)) tokenAdjacent_nil
      · exact tokenAdjacent_append ih.1
          (tokenAdjacent_cons (by intro t h; exact absurd h (by simp)) tokenAdjacent_nil)
          ⟨el, hel⟩
    · refine ⟨.nodeEl (.child p i b), ?_⟩
      show (WalkEvent.enter (.nodeEl (.child p i b)) ::
        (specEventsKids cs (.child p i b) 0 b ++ [.leave (.nodeEl (.child p i b))])).getLast? = _
      rw [← List.cons_append, List.getLast?_concat]

theorem tokAdj_kids :
    ∀ (cs : List GreenElement) (p : SyntaxNode) (i b : Nat),
      tokenAdjacent (specEventsKids cs p i b) ∧
      (specEventsKids cs p i b = [] ∨
        ∃ el : SyntaxElement, (specEventsKids cs p i b).getLast? = some (.leave el))
  | [], p, i, b => ⟨tokenAdjacent_nil, Or.inl rfl⟩
  | c :: cs, p, i, b => by
    have ih1 := tokAdj_child c p i b
    have ih2 := tokAdj_kids cs p (i + 1) (b + c.text_len)
    constructor
    · show tokenAdjacent (specEventsChild c p i b ++ specEventsKids cs p (i + 1) (b + c.text_len))
      exact tokenAdjacent_append ih1.1 ih2.1 ih1.2
    · right
      show ∃ el : SyntaxElement,
        (specEventsChild c p i b ++ specEventsKids cs p (i + 1) (b + c.text_len)).getLast? =
          some (.leave el)
      rcases ih2.2 with hnil | ⟨el, hel⟩
      · rw [hnil, List.append_nil]
        exact ih1.2
      · refine ⟨el, ?_⟩
        rw [List.getLast?_append_of_ne_nil]
        · exact hel
        · intro hcontra
          rw [hcontra] at hel
          simp at hel
end

theorem tokAdj_spec (n : SyntaxNode) : tokenAdjacent (preorderSpec n) := by
  have ih := tokAdj_kids n.green.children n 0 n.text_range.start
  show tokenAdjacent (.enter (.nodeEl n) ::
    (specEventsKids n.green.children n 0 n.text_range.start ++ [.leave (.nodeEl n)]))
  refine tokenAdjacent_cons (by intro t h; exact absurd h (by simp)) ?_
  rcases ih.2 with hnil | ⟨el, hel⟩
  · rw [hnil]
    refine tokenAdjacent_cons (by intro t h; exact absurd h (by simp)) tokenAdjacent_nil
  · exact tokenAdjacent_append ih.1
      (tokenAdjacent_cons (by intro t h; exact absurd h (by simp)) tokenAdjacent_nil)
      ⟨el, hel⟩

theorem preorderSpec_getLast (n : SyntaxNode) :
    (preorderSpec n).getLast? = some (.leave (.nodeEl n)) := by
  show (WalkEvent.enter (.nodeEl n) ::
    (specEventsKids n.green.children n 0 n.text_range.start ++ [.leave (.nodeEl n)])).getLast? = _
  rw [← List.cons_append, List.getLast?_concat]

theorem successorsList_ne_nil {α : Type} (f : α → Option α) (fuel : Nat) (a : α) :
    successorsList f fuel a ≠ [] := by
  cases fuel <;> simp [successorsList]

/-- Every trace element except possibly the last has a successor under
the step function: the iterator halts only at the final event. -/
theorem successorsList_dropLast {α : Type} (f : α → Option α) :
    ∀ (fuel : Nat) (a : α), ∀ x ∈ (successorsList f fuel a).dropLast, ∃ y, f x = some y
  | 0, a => by simp [successorsList]
  | fuel + 1, a => by
    intro x hx
    cases hfa : f a with
    | none =>
      rw [successorsList_halt f fuel hfa] at hx
      simp at hx
    | some b =>
      rw [successorsList_some f fuel hfa] at hx
      rw [List.dropLast_cons_of_ne_nil (successorsList_ne_nil f fuel b)] at hx
      rcases List.mem_cons.mp hx with rfl | hx
      · exact ⟨b, hfa⟩
      · exact successorsList_dropLast f fuel b x hx

/-- Concatenation of token texts in `Enter` order. -/
def concatTexts : List (WalkEvent SyntaxElement) → String
  | [] => ""
  | .enter (.tokenEl t) :: rest => t.text ++ concatTexts rest
  | .enter (.nodeEl _) :: rest => concatTexts rest
  | .leave _ :: rest => concatTexts rest

theorem concatTexts_append : ∀ l1 l2 : List (WalkEvent SyntaxElement),
    concatTexts (l1 ++ l2) = concatTexts l1 ++ concatTexts l2
  | [], l2 => by simp [concatTexts]
  | .enter (.tokenEl t) :: rest, l2 => by
    simp only [List.cons_append, concatTexts, List.append_eq,
      concatTexts_append rest l2, String.append_assoc]
  | .enter (.nodeEl m) :: rest, l2 => by
    simp only [List.cons_append, concatTexts, List.append_eq, concatTexts_append rest l2]
  | .leave el :: rest, l2 => by
    simp only [List.cons_append, concatTexts, List.append_eq, concatTexts_append rest l2]

mutual
theorem text_child :
    ∀ (c : GreenElement) (p : SyntaxNode) (i b : Nat),
      p.green.children[i]? = some c →
      concatTexts (specEventsChild c p i b) = c.text
  | .token k s, p, i, b, hc => by
    show SyntaxToken.text ⟨p, i, b⟩ ++ concatTexts [.leave (.tokenEl ⟨p, i, b⟩)] =
      GreenElement.text (.token k s)
    have hg : SyntaxToken.green ⟨p, i, b⟩ = .token k s := token_green_eq hc
    simp [SyntaxToken.text, hg, concatTexts, GreenElement.text]
  | .node k cs, p, i, b, hc => by
    have hch : (SyntaxNode.child p i b).green = .node k cs := child_green hc
    have hdrop : (SyntaxNode.child p i b).green.children.drop 0 = cs := by
      rw [hch, List.drop_zero]
      rfl
    show concatTexts (.enter (.nodeEl (.child p i b)) ::
        (specEventsKids cs (.child p i b) 0 b ++ [.leave (.nodeEl (.child p i b))])) = _
    rw [show concatTexts (.enter (.nodeEl (.child p i b)) ::
        (specEventsKids cs (.child p i b) 0 b ++ [.leave (.nodeEl (.child p i b))])) =
      concatTexts (specEventsKids cs (.child p i b) 0 b ++
        [.leave (.nodeEl (.child p i b))]) from rfl]
    rw [concatTexts_append]
    rw [text_kids cs (.child p i b) 0 b hdrop]
    show GreenElement.textList cs ++ "" = GreenElement.text (.node k cs)
    simp [GreenElement.text]

theorem text_kids :
    ∀ (cs : List GreenElement) (q : SyntaxNode) (i b : Nat),
      q.green.children.drop i = cs →
      concatTexts (specEventsKids cs q i b) = GreenElement.textList cs
  | [], q, i, b, _ => rfl
  | c :: cs, q, i, b, hdrop => by
    have h0 := List.getElem?_drop q.green.children i 0
    rw [hdrop] at h0
    have hc : q.green.children[i]? = some c := by simpa using h0.symm
    have hdrop' : q.green.children.drop (i + 1) = cs := by
      rw [← List.tail_drop, hdrop]
      rfl
    show concatTexts (specEventsChild c q i b ++
      specEventsKids cs q (i + 1) (b + c.text_len)) = _
    rw [concatTexts_append, text_child c q i b hc,
      text_kids cs q (i + 1) (b + c.text_len) hdrop']
    rfl
end

/-- Concatenating the token texts of the trace in Enter order rebuilds
the subtree's text. -/
theorem text_spec {n : SyntaxNode} (hv : n.Valid) :
    concatTexts (preorderSpec n) = n.green.text := by
  obtain ⟨kk, cs, hg⟩ : ∃ kk cs, n.green = .node kk cs := by
    have := hv.green_isNode
    cases hgr : n.green with
    | token k s => rw [hgr] at this; simp [GreenElement.isNode] at this
    | node k cs => exact ⟨k, cs, rfl⟩
  have hdrop : n.green.children.drop 0 = n.green.children := List.drop_zero _
  show concatTexts (.enter (.nodeEl n) ::
    (specEventsKids n.green.children n 0 n.text_range.start ++ [.leave (.nodeEl n)])) = _
  rw [show concatTexts (.enter (.nodeEl n) ::
      (specEventsKids n.green.children n 0 n.text_range.start ++ [.leave (.nodeEl n)])) =
    concatTexts (specEventsKids n.green.children n 0 n.text_range.start ++
      [.leave (.nodeEl n)]) from rfl]
  rw [concatTexts_append, text_kids n.green.children n 0 n.text_range.start hdrop]
  rw [hg]
  show GreenElement.textList (GreenElement.node kk cs).children ++ "" =
    GreenElement.text (.node kk cs)
  simp [GreenElement.text, GreenElement.children]

/-- C3: for every well-formed node, `preorder_with_tokens` produces
exactly the recursive preorder event list; it emits exactly one Enter
and one Leave per element of the subtree (the subtree elements being
pairwise distinct); every token Enter is immediately followed by the
matching Leave; the walk ends at `Leave(start)`, which occurs exactly
once, is where the step function halts, and is the only event without a
successor; and concatenating token texts in Enter order reconstructs
the subtree's text. -/
theorem claim_C3 (n : SyntaxNode) (hv : n.Valid) :
    n.preorder_with_tokens = preorderSpec n ∧
    (∀ x : SyntaxElement,
      n.preorder_with_tokens.count (.enter x) = (subtreeEls n).count x ∧
      n.preorder_with_tokens.count (.leave x) = (subtreeEls n).count x) ∧
    (subtreeEls n).Nodup ∧
    (∀ x ∈ subtreeEls n,
      n.preorder_with_tokens.count (.enter x) = 1 ∧
      n.preorder_with_tokens.count (.leave x) = 1) ∧
    tokenAdjacent n.preorder_with_tokens ∧
    n.preorder_with_tokens.getLast? = some (.leave (.nodeEl n)) ∧
    n.preorder_with_tokens.count (.leave (.nodeEl n)) = 1 ∧
    preorderWTStep (.nodeEl n) (.leave (.nodeEl n)) = none ∧
    (∀ ev ∈ n.preorder_with_tokens.dropLast,
      ∃ ev2, preorderWTStep (.nodeEl n) ev = some ev2) ∧
    concatTexts n.preorder_with_tokens = n.green.text := by
  have heq : n.preorder_with_tokens = preorderSpec n := preorder_eq hv
  refine ⟨heq, ?_, subtreeEls_nodup n, ?_, ?_, ?_, ?_, step_leave_start n, ?_, ?_⟩
  · intro x
    rw [heq]
    exact ⟨(count_spec n x).1, (count_spec n x).2⟩
  · intro x hx
    rw [heq, (count_spec n x).1, (count_spec n x).2]
    have h1 := List.count_eq_one_of_mem (subtreeEls_nodup n) hx
    exact ⟨h1, h1⟩
  · rw [heq]
    exact tokAdj_spec n
  · rw [heq]
    exact preorderSpec_getLast n
  · rw [heq, (count_spec n (.nodeEl n)).2]
    exact List.count_eq_one_of_mem (subtreeEls_nodup n) (List.mem_cons_self _ _)
  · intro ev hev
    exact successorsList_dropLast (preorderWTStep (.nodeEl n)) (2 * n.green.count)
      (.enter (.nodeEl n)) ev hev
  · rw [heq]
    exact text_spec hv

theorem claim_C3_witness :
    s1Root.Valid ∧
    s1Root.preorder_with_tokens = preorderSpec s1Root ∧
    s1Root.preorder_with_tokens.getLast? = some (.leave (.nodeEl s1Root)) ∧
    s1Root.preorder_with_tokens.count (.leave (.nodeEl s1Root)) = 1 ∧
    concatTexts s1Root.preorder_with_tokens = s1Green.text :=
  ⟨.root _ rfl, (claim_C3 s1Root (.root _ rfl)).1,
    (claim_C3 s1Root (.root _ rfl)).2.2.2.2.2.1,
    (claim_C3 s1Root (.root _ rfl)).2.2.2.2.2.2.1,
    (claim_C3 s1Root (.root _ rfl)).2.2.2.2.2.2.2.2.2⟩

end Rowan
